import Mathlib

/-!
Verification of the `go-secrets` library core against its specification.

The Go source is shallowly embedded: strings are manipulated as `List Char`
(one entry per rune, matching Go's handling of UTF-8 text at the points the
embedded functions inspect it), fallible functions return `Except`/`Option`,
and struct mutation is modelled by explicit state passing.
-/

namespace GoSecrets

/-- Components of a `secret` struct tag, mirroring `parsedTag` in `tag.go`. -/
structure parsedTag where
  Scheme : String
  Key : String
  Fragment : String
  Optional : Bool
  Version : String
deriving DecidableEq

/-- `strings.Split` restricted to a one-rune separator (the only use in
`parseTag` is `strings.Split(raw, ",")`). `splitChar c l` cuts `l` at every
occurrence of `c`; the result is always non-empty. -/
def splitChar (c : Char) : List Char → List (List Char)
  | [] => [[]]
  | x :: xs =>
    if x = c then [] :: splitChar c xs
    else
      match splitChar c xs with
      | [] => [[x]]
      | h :: t => (x :: h) :: t

/-- `strings.HasPrefix p l` (argument order: the candidate head first). -/
def leadsWith : List Char → List Char → Bool
  | [], _ => true
  | _ :: _, [] => false
  | p :: ps, x :: xs => p = x && leadsWith ps xs

/-- `strings.Cut(l, sep)`: split at the first occurrence of `sep`,
returning `none` when `sep` does not occur. -/
def cutSeq (sep : List Char) : List Char → Option (List Char × List Char)
  | [] => if leadsWith sep [] then some ([], []) else none
  | x :: xs =>
    if leadsWith sep (x :: xs) then some ([], (x :: xs).drop sep.length)
    else
      match cutSeq sep xs with
      | none => none
      | some (a, b) => some (x :: a, b)

/-- Split at the last occurrence of rune `c`: `some (before, after)` when `c`
occurs, mirroring the `strings.LastIndex(uri, "#")` slicing in `parseTag`. -/
def splitAtLastChar (c : Char) : List Char → Option (List Char × List Char)
  | [] => none
  | x :: xs =>
    match splitAtLastChar c xs with
    | some (a, b) => some (x :: a, b)
    | none => if x = c then some ([], xs) else none

/-- The option loop of `parseTag` (`tag.go` lines 32-41): `optional` sets the
flag, `version=X` records the version (later occurrences overwrite), anything
else aborts with an error. -/
def applyOpts (t : parsedTag) : List (List Char) → Except String parsedTag
  | [] => .ok t
  | opt :: rest =>
    if opt = "optional".data then applyOpts { t with Optional := true } rest
    else if leadsWith "version=".data opt then
      applyOpts { t with Version := String.mk (opt.drop 8) } rest
    else .error "secrets: unknown tag option"

/-- The fragment extraction step of `parseTag` (`tag.go` lines 44-47): take
everything after the last `#` of the URI part as the fragment. -/
def stripHash (uri0 : List Char) (t0 : parsedTag) : List Char × parsedTag :=
  match splitAtLastChar '#' uri0 with
  | some (before, after) => (before, { t0 with Fragment := String.mk after })
  | none => (uri0, t0)

/-- The scheme detection step of `parseTag` (`tag.go` lines 50-55): cut at
the first `://`. -/
def applyScheme (u : List Char) (t : parsedTag) : parsedTag :=
  match cutSeq "://".data u with
  | some (scheme, rest) => { t with Scheme := String.mk scheme, Key := String.mk rest }
  | none => { t with Key := String.mk u }

/-- The tail of `parseTag` after option processing: strip the fragment,
detect the scheme, reject an empty key. -/
def finishTag (uri0 : List Char) (t0 : parsedTag) : Except String parsedTag :=
  let p := stripHash uri0 t0
  let t2 := applyScheme p.1 p.2
  if t2.Key = "" then .error "secrets: empty key in tag"
  else .ok t2

/-- `parseTag` from `tag.go`: reject the empty tag, split off comma separated
options, take the fragment after the last `#` of the URI part, detect the
scheme at the first `://`, and reject an empty key. -/
def parseTag (raw : String) : Except String parsedTag :=
  if raw = "" then .error "secrets: empty tag"
  else
    match applyOpts ⟨"", "", "", false, ""⟩ (splitChar ',' raw.data).tail with
    | .error e => .error e
    | .ok t0 => finishTag ((splitChar ',' raw.data).headD []) t0

/-- `parsedTag.URI` from `tag.go`: the canonical URI used for deduplication. -/
def tagURI (t : parsedTag) : String :=
  if t.Scheme ≠ "" then t.Scheme ++ "://" ++ t.Key else t.Key

/-! ### Specification-side description of the tag grammar (for C5)

These definitions follow the wording of the specification: the URI part is
the text before the first comma, the options are the remaining
comma-separated items, the fragment is everything after the last `#` of the
URI part, and the scheme is the text before the first `://`. They are stated
relationally (as decompositions) rather than re-running the parser. -/

/-- The URI part of a tag: the text before the first comma. -/
def uriPartOf (raw : String) : List Char := raw.data.takeWhile (· ≠ ',')

/-- The comma-separated options of a tag: every item after the first comma. -/
def optItemsOf (raw : String) : List (List Char) := (splitChar ',' raw.data).tail

/-- All options are either `optional` or of the form `version=...`. -/
def SpecOptsOk (raw : String) : Prop :=
  ∀ o ∈ optItemsOf raw, o = "optional".data ∨ ∃ r, o = "version=".data ++ r

/-- `u'` is the URI text `u` with the fragment stripped: the prefix before
the last `#` when one occurs, the whole text otherwise. -/
def SpecStrippedU (u u' : List Char) : Prop :=
  ('#' ∈ u ∧ ∃ f, u = u' ++ '#' :: f ∧ '#' ∉ f) ∨ ('#' ∉ u ∧ u' = u)

/-- Scheme/key split of the fragment-stripped URI `u'`: the scheme is the
text before the first `://` (no `://` means empty scheme) and the key is the
remainder. -/
def SpecSchemeKey (u' : List Char) (t : parsedTag) : Prop :=
  (¬(∃ a b, u' = a ++ "://".data ++ b) → t.Scheme = "" ∧ t.Key.data = u')
    ∧ ((∃ a b, u' = a ++ "://".data ++ b) →
        u' = t.Scheme.data ++ "://".data ++ t.Key.data ∧
        ∀ a b, u' = a ++ "://".data ++ b → t.Scheme.data.length ≤ a.length)

/-- The key obtained from URI text `u` (after stripping scheme and fragment)
is empty. -/
def SpecKeyEmptyU (u : List Char) : Prop :=
  ∃ u', SpecStrippedU u u' ∧
    ((¬(∃ a b, u' = a ++ "://".data ++ b) ∧ u' = [])
      ∨ (∃ a, u' = a ++ "://".data ∧
          ∀ a' b', u' = a' ++ "://".data ++ b' → a.length ≤ a'.length))

/-- The claimed relation between a successfully parsed tag and URI text `u`:
fragment after the last `#`, then scheme before the first `://` and key the
remainder. -/
def SpecComponentsU (u : List Char) (t : parsedTag) : Prop :=
  ∃ u', SpecStrippedU u u' ∧ SpecSchemeKey u' t ∧
    (('#' ∈ u → ∃ pre, u = pre ++ '#' :: t.Fragment.data ∧ '#' ∉ t.Fragment.data)
      ∧ ('#' ∉ u → t.Fragment = ""))

/-- The key of the tag (after stripping scheme and fragment) is empty. -/
def SpecKeyEmpty (raw : String) : Prop := SpecKeyEmptyU (uriPartOf raw)

/-- The claimed relation between a successfully parsed tag and the raw tag
text: components are read off the URI part (the text before the first
comma). -/
def SpecComponents (raw : String) (t : parsedTag) : Prop :=
  SpecComponentsU (uriPartOf raw) t

/-! ### Lemmas relating the parser's helpers to the spec-side descriptions -/

theorem splitChar_ne_nil (c : Char) (l : List Char) : splitChar c l ≠ [] := by
  cases l with
  | nil => simp [splitChar]
  | cons x xs =>
    simp only [splitChar]
    split
    · simp
    · split <;> simp

theorem splitChar_headD (c : Char) (l : List Char) :
    (splitChar c l).headD [] = l.takeWhile (· ≠ c) := by
  induction l with
  | nil => simp [splitChar]
  | cons x xs ih =>
    simp only [splitChar, List.takeWhile]
    by_cases hx : x = c
    · simp [hx]
    · simp only [if_neg hx]
      have hne := splitChar_ne_nil c xs
      cases h : splitChar c xs with
      | nil => exact absurd h hne
      | cons h0 t0 =>
        simp only [List.headD]
        have : (x = c) = False := by simp [hx]
        simp [hx, h] at ih ⊢
        simpa [decide_eq_true_eq] using ih

theorem leadsWith_iff (p l : List Char) : leadsWith p l = true ↔ ∃ r, l = p ++ r := by
  induction p generalizing l with
  | nil => simp [leadsWith]
  | cons a p ih =>
    cases l with
    | nil => simp [leadsWith]
    | cons x xs =>
      simp only [leadsWith, Bool.and_eq_true, decide_eq_true_eq, ih, List.cons_append,
        List.cons.injEq]
      constructor
      · rintro ⟨rfl, r, rfl⟩; exact ⟨r, rfl, rfl⟩
      · rintro ⟨r, rfl, rfl⟩; exact ⟨rfl, r, rfl⟩

theorem splitAtLastChar_none {c : Char} {l : List Char}
    (h : splitAtLastChar c l = none) : c ∉ l := by
  induction l with
  | nil => simp
  | cons x xs ih =>
    simp only [splitAtLastChar] at h
    cases hx : splitAtLastChar c xs with
    | some p => rw [hx] at h; simp at h
    | none =>
      rw [hx] at h
      by_cases hxc : x = c
      · simp [if_pos hxc] at h
      · intro hmem
        rcases List.mem_cons.mp hmem with h1 | h1
        · exact hxc h1.symm
        · exact ih hx h1

theorem splitAtLastChar_some {c : Char} {l a b : List Char}
    (h : splitAtLastChar c l = some (a, b)) : l = a ++ c :: b ∧ c ∉ b := by
  induction l generalizing a b with
  | nil => simp [splitAtLastChar] at h
  | cons x xs ih =>
    simp only [splitAtLastChar] at h
    cases hx : splitAtLastChar c xs with
    | some p =>
      obtain ⟨a0, b0⟩ := p
      rw [hx] at h
      injection h with h'
      obtain ⟨rfl, rfl⟩ : x :: a0 = a ∧ b0 = b := Prod.mk.inj h'
      obtain ⟨hl, hb⟩ := ih hx
      exact ⟨by rw [hl]; rfl, hb⟩
    | none =>
      rw [hx] at h
      by_cases hxc : x = c
      · simp only [if_pos hxc] at h
        injection h with h'
        obtain ⟨rfl, rfl⟩ : ([] : List Char) = a ∧ xs = b := Prod.mk.inj h'
        subst hxc
        exact ⟨rfl, splitAtLastChar_none hx⟩
      · simp [if_neg hxc] at h

theorem splitAtLastChar_isSome_of_mem {c : Char} {l : List Char} (h : c ∈ l) :
    (splitAtLastChar c l).isSome := by
  induction l with
  | nil => simp at h
  | cons x xs ih =>
    simp only [splitAtLastChar]
    cases hx : splitAtLastChar c xs with
    | some p => simp
    | none =>
      rcases List.mem_cons.mp h with h1 | h1
      · simp [← h1]
      · have := ih h1; rw [hx] at this; simp at this

/-- Uniqueness of the "after the last occurrence" decomposition. -/
theorem lastSplit_unique {c : Char} {pre pre' f f' : List Char}
    (h : pre ++ c :: f = pre' ++ c :: f') (hf : c ∉ f) (hf' : c ∉ f') :
    pre = pre' ∧ f = f' := by
  induction pre generalizing pre' with
  | nil =>
    cases pre' with
    | nil => simpa using h
    | cons y ys =>
      exfalso
      simp only [List.nil_append, List.cons_append, List.cons.injEq] at h
      obtain ⟨rfl, h2⟩ := h
      exact hf (by rw [h2]; exact List.mem_append_right _ (List.mem_cons_self _ _))
  | cons x xs ih =>
    cases pre' with
    | nil =>
      exfalso
      simp only [List.cons_append, List.nil_append, List.cons.injEq] at h
      obtain ⟨rfl, h2⟩ := h
      exact hf' (by rw [← h2]; exact List.mem_append_right _ (List.mem_cons_self _ _))
    | cons y ys =>
      simp only [List.cons_append, List.cons.injEq] at h
      obtain ⟨rfl, h2⟩ := h
      obtain ⟨rfl, rfl⟩ := ih h2
      exact ⟨rfl, rfl⟩

theorem cutSeq_some {sep l a b : List Char} (hsep : sep ≠ [])
    (h : cutSeq sep l = some (a, b)) :
    l = a ++ sep ++ b ∧ ∀ a' b', l = a' ++ sep ++ b' → a.length ≤ a'.length := by
  induction l generalizing a b with
  | nil =>
    obtain ⟨s, ss, rfl⟩ : ∃ s ss, sep = s :: ss := by
      cases sep with
      | nil => exact absurd rfl hsep
      | cons s ss => exact ⟨s, ss, rfl⟩
    simp [cutSeq, leadsWith] at h
  | cons x xs ih =>
    simp only [cutSeq] at h
    by_cases hlw : leadsWith sep (x :: xs) = true
    · rw [if_pos hlw] at h
      injection h with h'
      obtain ⟨rfl, rfl⟩ : ([] : List Char) = a ∧ (x :: xs).drop sep.length = b :=
        Prod.mk.inj h'
      obtain ⟨r, hr⟩ := (leadsWith_iff _ _).mp hlw
      refine ⟨?_, fun a' b' _ => Nat.zero_le _⟩
      rw [hr, List.drop_left, List.nil_append]
    · rw [if_neg hlw] at h
      cases hx : cutSeq sep xs with
      | none => rw [hx] at h; simp at h
      | some p =>
        obtain ⟨a0, b0⟩ := p
        rw [hx] at h
        injection h with h'
        obtain ⟨rfl, rfl⟩ : x :: a0 = a ∧ b0 = b := Prod.mk.inj h'
        obtain ⟨hxs, hmin⟩ := ih hx
        constructor
        · rw [hxs]; rfl
        · intro a' b' heq
          cases a' with
          | nil =>
            exfalso
            apply hlw
            exact (leadsWith_iff _ _).mpr ⟨b', by simpa using heq⟩
          | cons y a'' =>
            simp only [List.cons_append, List.cons.injEq] at heq
            obtain ⟨rfl, heq2⟩ := heq
            simpa using Nat.succ_le_succ (hmin a'' b' heq2)

theorem cutSeq_none {sep l : List Char} (hsep : sep ≠ [])
    (h : cutSeq sep l = none) : ¬∃ a b, l = a ++ sep ++ b := by
  induction l with
  | nil =>
    rintro ⟨a, b, heq⟩
    have hlen := congrArg List.length heq
    simp [List.length_append] at hlen
    have hpos : 0 < sep.length := List.length_pos.mpr hsep
    omega
  | cons x xs ih =>
    simp only [cutSeq] at h
    by_cases hlw : leadsWith sep (x :: xs) = true
    · rw [if_pos hlw] at h; simp at h
    · rw [if_neg hlw] at h
      cases hx : cutSeq sep xs with
      | some p => rw [hx] at h; cases p; simp at h
      | none =>
        rintro ⟨a, b, heq⟩
        cases a with
        | nil =>
          exact hlw ((leadsWith_iff _ _).mpr ⟨b, by simpa using heq⟩)
        | cons y a'' =>
          simp only [List.cons_append, List.cons.injEq] at heq
          exact ih hx ⟨a'', b, heq.2⟩

theorem applyOpts_isOk_iff (t : parsedTag) (opts : List (List Char)) :
    (applyOpts t opts).isOk = true ↔
      ∀ o ∈ opts, o = "optional".data ∨ ∃ r, o = "version=".data ++ r := by
  induction opts generalizing t with
  | nil => simp [applyOpts, Except.isOk, Except.toBool]
  | cons o rest ih =>
    simp only [applyOpts]
    by_cases h1 : o = "optional".data
    · rw [if_pos h1]
      simp only [List.mem_cons, ih]
      constructor
      · intro h o' ho'
        rcases ho' with rfl | ho'
        · exact Or.inl h1
        · exact h o' ho'
      · intro h o' ho'; exact h o' (Or.inr ho')
    · rw [if_neg h1]
      by_cases h2 : leadsWith "version=".data o = true
      · rw [if_pos h2]
        simp only [List.mem_cons, ih]
        constructor
        · intro h o' ho'
          rcases ho' with rfl | ho'
          · exact Or.inr ((leadsWith_iff _ _).mp h2)
          · exact h o' ho'
        · intro h o' ho'; exact h o' (Or.inr ho')
      · rw [if_neg h2]
        simp only [Except.isOk, Except.toBool, List.mem_cons]
        constructor
        · intro h; exact absurd h (by simp)
        · intro h
          rcases h o (Or.inl rfl) with hc | ⟨r, hr⟩
          · exact absurd hc h1
          · exact absurd ((leadsWith_iff _ _).mpr ⟨r, hr⟩) h2

theorem applyOpts_preserves (opts : List (List Char)) :
    ∀ (t t' : parsedTag), applyOpts t opts = .ok t' →
      t'.Scheme = t.Scheme ∧ t'.Key = t.Key ∧ t'.Fragment = t.Fragment := by
  induction opts with
  | nil =>
    intro t t' h
    simp only [applyOpts] at h
    injection h with h'
    subst h'
    exact ⟨rfl, rfl, rfl⟩
  | cons o rest ih =>
    intro t t' h
    simp only [applyOpts] at h
    by_cases h1 : o = "optional".data
    · rw [if_pos h1] at h
      have hp := ih _ _ h
      exact hp
    · rw [if_neg h1] at h
      by_cases h2 : leadsWith "version=".data o = true
      · rw [if_pos h2] at h
        have hp := ih _ _ h
        exact hp
      · rw [if_neg h2] at h; simp at h

theorem stringMk_eq_empty {l : List Char} (h : String.mk l = "") : l = [] := by
  have h2 := congrArg String.data h
  simpa using h2

theorem stringMk_ne_empty {l : List Char} (h : l ≠ []) : String.mk l ≠ "" :=
  fun hc => h (stringMk_eq_empty hc)

/-- Stripping the fragment is a function: the decomposition at the last `#`
is unique. -/
theorem strippedU_unique {u u₁ u₂ : List Char}
    (h1 : SpecStrippedU u u₁) (h2 : SpecStrippedU u u₂) : u₁ = u₂ := by
  rcases h1 with ⟨hm, f₁, hd₁, hn₁⟩ | ⟨hm, he⟩
  · rcases h2 with ⟨_, f₂, hd₂, hn₂⟩ | ⟨hm2, _⟩
    · exact (lastSplit_unique (hd₁.symm.trans hd₂) hn₁ hn₂).1
    · exact absurd hm hm2
  · rcases h2 with ⟨hm2, _⟩ | ⟨_, he2⟩
    · exact absurd hm2 hm
    · rw [he, he2]

/-- Characterization of the tail of the parser (`finishTag`): it fails
exactly when the key is empty, and on success the components are the
spec-side decomposition of the URI text. -/
theorem finishTag_spec (uri0 : List Char) (t0 : parsedTag)
    (hS : t0.Scheme = "") (hF : t0.Fragment = "") :
    ((finishTag uri0 t0).isOk = false ↔ SpecKeyEmptyU uri0)
    ∧ (∀ t, finishTag uri0 t0 = .ok t → SpecComponentsU uri0 t) := by
  have hsep : ("://".data : List Char) ≠ [] := by decide
  cases hsplit : splitAtLastChar '#' uri0 with
  | some p =>
    obtain ⟨before, after⟩ := p
    obtain ⟨hdec, hnin⟩ := splitAtLastChar_some hsplit
    have hhash : '#' ∈ uri0 := by
      rw [hdec]; exact List.mem_append_right _ (List.mem_cons_self _ _)
    have hstripped : SpecStrippedU uri0 before := Or.inl ⟨hhash, after, hdec, hnin⟩
    have hstrip : stripHash uri0 t0 = (before, { t0 with Fragment := String.mk after }) := by
      simp [stripHash, hsplit]
    cases hcut : cutSeq "://".data before with
    | some q =>
      obtain ⟨scheme, rest⟩ := q
      obtain ⟨hcd, hmin⟩ := cutSeq_some hsep hcut
      have happly : applyScheme before { t0 with Fragment := String.mk after } =
          { t0 with
              Fragment := String.mk after, Scheme := String.mk scheme,
              Key := String.mk rest } := by
        simp [applyScheme, hcut]
      by_cases hrest : rest = []
      · subst hrest
        have hfin : finishTag uri0 t0 = .error "secrets: empty key in tag" := by
          simp [finishTag, hstrip, happly]
        have hke : SpecKeyEmptyU uri0 :=
          ⟨before, hstripped, Or.inr ⟨scheme, by simpa using hcd, fun a' b' h => hmin a' b' h⟩⟩
        refine ⟨⟨fun _ => hke, fun _ => by rw [hfin]; rfl⟩, ?_⟩
        intro t ht
        rw [hfin] at ht
        exact Except.noConfusion ht
      · have hkne : ({ t0 with
              Fragment := String.mk after, Scheme := String.mk scheme,
              Key := String.mk rest } : parsedTag).Key ≠ "" := stringMk_ne_empty hrest
        have hfin : finishTag uri0 t0 = .ok { t0 with
            Fragment := String.mk after,
            Scheme := String.mk scheme, Key := String.mk rest } := by
          simp [finishTag, hstrip, happly, if_neg hkne]
        have hnke : ¬ SpecKeyEmptyU uri0 := by
          rintro ⟨u'', hstr, hdis⟩
          have hu : u'' = before := strippedU_unique hstr hstripped
          subst hu
          rcases hdis with ⟨hno, _⟩ | ⟨a, hae, hamin⟩
          · exact hno ⟨scheme, rest, hcd⟩
          · have h1 : scheme.length ≤ a.length := hmin a [] (by simpa using hae)
            have h2 : a.length ≤ scheme.length := hamin scheme rest hcd
            have hlen : scheme.length = a.length := Nat.le_antisymm h1 h2
            have hcd' : scheme ++ ("://".data ++ rest) = a ++ ("://".data ++ []) := by
              rw [← List.append_assoc, ← List.append_assoc, ← hcd]
              simpa using hae
            obtain ⟨-, htail⟩ := List.append_inj hcd' hlen
            have : rest = [] := by simpa using htail
            exact hrest this
        refine ⟨⟨fun h => by rw [hfin] at h; simp [Except.isOk, Except.toBool] at h, fun h => absurd h hnke⟩, ?_⟩
        intro t ht
        rw [hfin] at ht
        injection ht with ht'
        subst ht'
        refine ⟨before, hstripped, ⟨fun hno => absurd ⟨scheme, rest, hcd⟩ hno,
          fun _ => ⟨by simpa using hcd, hmin⟩⟩, ⟨fun _ => ⟨before, hdec, hnin⟩,
          fun hnh => absurd hhash hnh⟩⟩
    | none =>
      have hno := cutSeq_none hsep hcut
      have happly : applyScheme before { t0 with Fragment := String.mk after } =
          { t0 with Fragment := String.mk after, Key := String.mk before } := by
        simp [applyScheme, hcut]
      by_cases hb : before = []
      · subst hb
        have hfin : finishTag uri0 t0 = .error "secrets: empty key in tag" := by
          simp [finishTag, hstrip, happly]
        have hke : SpecKeyEmptyU uri0 := ⟨[], hstripped, Or.inl ⟨hno, rfl⟩⟩
        refine ⟨⟨fun _ => hke, fun _ => by rw [hfin]; rfl⟩, ?_⟩
        intro t ht
        rw [hfin] at ht
        exact Except.noConfusion ht
      · have hkne : ({ t0 with
              Fragment := String.mk after,
              Key := String.mk before } : parsedTag).Key ≠ "" := stringMk_ne_empty hb
        have hfin : finishTag uri0 t0 = .ok { t0 with
            Fragment := String.mk after,
            Key := String.mk before } := by
          simp [finishTag, hstrip, happly, if_neg hkne]
        have hnke : ¬ SpecKeyEmptyU uri0 := by
          rintro ⟨u'', hstr, hdis⟩
          have hu : u'' = before := strippedU_unique hstr hstripped
          subst hu
          rcases hdis with ⟨-, hnil⟩ | ⟨a, hae, -⟩
          · exact hb hnil
          · exact hno ⟨a, [], by simpa using hae⟩
        refine ⟨⟨fun h => by rw [hfin] at h; simp [Except.isOk, Except.toBool] at h, fun h => absurd h hnke⟩, ?_⟩
        intro t ht
        rw [hfin] at ht
        injection ht with ht'
        subst ht'
        refine ⟨before, hstripped, ⟨fun _ => ⟨hS, rfl⟩,
          fun hex => absurd hex hno⟩, ⟨fun _ => ⟨before, hdec, hnin⟩,
          fun hnh => absurd hhash hnh⟩⟩
  | none =>
    have hnh : '#' ∉ uri0 := splitAtLastChar_none hsplit
    have hstripped : SpecStrippedU uri0 uri0 := Or.inr ⟨hnh, rfl⟩
    have hstrip : stripHash uri0 t0 = (uri0, t0) := by
      simp [stripHash, hsplit]
    cases hcut : cutSeq "://".data uri0 with
    | some q =>
      obtain ⟨scheme, rest⟩ := q
      obtain ⟨hcd, hmin⟩ := cutSeq_some hsep hcut
      have happly : applyScheme uri0 t0 =
          { t0 with Scheme := String.mk scheme, Key := String.mk rest } := by
        simp [applyScheme, hcut]
      by_cases hrest : rest = []
      · subst hrest
        have hfin : finishTag uri0 t0 = .error "secrets: empty key in tag" := by
          simp [finishTag, hstrip, happly]
        have hke : SpecKeyEmptyU uri0 :=
          ⟨uri0, hstripped, Or.inr ⟨scheme, by simpa using hcd, fun a' b' h => hmin a' b' h⟩⟩
        refine ⟨⟨fun _ => hke, fun _ => by rw [hfin]; rfl⟩, ?_⟩
        intro t ht
        rw [hfin] at ht
        exact Except.noConfusion ht
      · have hkne : ({ t0 with
              Scheme := String.mk scheme,
              Key := String.mk rest } : parsedTag).Key ≠ "" := stringMk_ne_empty hrest
        have hfin : finishTag uri0 t0 = .ok { t0 with
            Scheme := String.mk scheme,
            Key := String.mk rest } := by
          simp [finishTag, hstrip, happly, if_neg hkne]
        have hnke : ¬ SpecKeyEmptyU uri0 := by
          rintro ⟨u'', hstr, hdis⟩
          have hu : u'' = uri0 := strippedU_unique hstr hstripped
          subst hu
          rcases hdis with ⟨hno, _⟩ | ⟨a, hae, hamin⟩
          · exact hno ⟨scheme, rest, hcd⟩
          · have h1 : scheme.length ≤ a.length := hmin a [] (by simpa using hae)
            have h2 : a.length ≤ scheme.length := hamin scheme rest hcd
            have hlen : scheme.length = a.length := Nat.le_antisymm h1 h2
            have hcd' : scheme ++ ("://".data ++ rest) = a ++ ("://".data ++ []) := by
              rw [← List.append_assoc, ← List.append_assoc, ← hcd]
              simpa using hae
            obtain ⟨-, htail⟩ := List.append_inj hcd' hlen
            have : rest = [] := by simpa using htail
            exact hrest this
        refine ⟨⟨fun h => by rw [hfin] at h; simp [Except.isOk, Except.toBool] at h, fun h => absurd h hnke⟩, ?_⟩
        intro t ht
        rw [hfin] at ht
        injection ht with ht'
        subst ht'
        refine ⟨uri0, hstripped, ⟨fun hno => absurd ⟨scheme, rest, hcd⟩ hno,
          fun _ => ⟨by simpa using hcd, hmin⟩⟩, ⟨fun hh => absurd hh hnh,
          fun _ => hF⟩⟩
    | none =>
      have hno := cutSeq_none hsep hcut
      have happly : applyScheme uri0 t0 = { t0 with Key := String.mk uri0 } := by
        simp [applyScheme, hcut]
      by_cases hb : uri0 = []
      · subst hb
        have hfin : finishTag [] t0 = .error "secrets: empty key in tag" := by
          simp [finishTag, hstrip, happly]
        have hke : SpecKeyEmptyU [] := ⟨[], hstripped, Or.inl ⟨hno, rfl⟩⟩
        refine ⟨⟨fun _ => hke, fun _ => by rw [hfin]; rfl⟩, ?_⟩
        intro t ht
        rw [hfin] at ht
        exact Except.noConfusion ht
      · have hkne : ({ t0 with Key := String.mk uri0 } : parsedTag).Key ≠ "" :=
          stringMk_ne_empty hb
        have hfin : finishTag uri0 t0 = .ok { t0 with Key := String.mk uri0 } := by
          simp [finishTag, hstrip, happly, if_neg hkne]
        have hnke : ¬ SpecKeyEmptyU uri0 := by
          rintro ⟨u'', hstr, hdis⟩
          have hu : u'' = uri0 := strippedU_unique hstr hstripped
          subst hu
          rcases hdis with ⟨-, hnil⟩ | ⟨a, hae, -⟩
          · exact hb hnil
          · exact hno ⟨a, [], by simpa using hae⟩
        refine ⟨⟨fun h => by rw [hfin] at h; simp [Except.isOk, Except.toBool] at h, fun h => absurd h hnke⟩, ?_⟩
        intro t ht
        rw [hfin] at ht
        injection ht with ht'
        subst ht'
        refine ⟨uri0, hstripped, ⟨fun _ => ⟨hS, rfl⟩,
          fun hex => absurd hex hno⟩, ⟨fun hh => absurd hh hnh, fun _ => hF⟩⟩

/-- C5: `parseTag` returns an error if and only if the tag is empty, the key
(after stripping scheme and fragment) is empty, or some comma-separated
option is neither `optional` nor of the form `version=...`; on success the
fragment is everything after the last `#` of the URI part, the scheme is the
text before the first `://` (absent `://` means empty scheme), and the key
is the remainder. -/
theorem parseTag_characterization (raw : String) :
    ((parseTag raw).isOk = false ↔ raw = "" ∨ ¬ SpecOptsOk raw ∨ SpecKeyEmpty raw)
    ∧ (∀ t, parseTag raw = .ok t → SpecComponents raw t) := by
  by_cases hraw : raw = ""
  · subst hraw
    refine ⟨⟨fun _ => Or.inl rfl, fun _ => rfl⟩, ?_⟩
    intro t ht
    exact Except.noConfusion ht
  · have hhead : (splitChar ',' raw.data).headD [] = uriPartOf raw :=
      splitChar_headD ',' raw.data
    cases happ : applyOpts ⟨"", "", "", false, ""⟩ (splitChar ',' raw.data).tail with
    | error e =>
      have hfe : parseTag raw = .error e := by
        simp [parseTag, if_neg hraw, happ]
      have hbad : ¬ SpecOptsOk raw := by
        intro hok
        have hok2 := (applyOpts_isOk_iff ⟨"", "", "", false, ""⟩ (optItemsOf raw)).mpr hok
        rw [show optItemsOf raw = (splitChar ',' raw.data).tail from rfl, happ] at hok2
        simp [Except.isOk, Except.toBool] at hok2
      refine ⟨⟨fun _ => Or.inr (Or.inl hbad), fun _ => by rw [hfe]; rfl⟩, ?_⟩
      intro t ht
      rw [hfe] at ht
      exact Except.noConfusion ht
    | ok t0 =>
      obtain ⟨hS, -, hF⟩ := applyOpts_preserves _ _ _ happ
      have hfin : parseTag raw = finishTag (uriPartOf raw) t0 := by
        rw [← hhead]
        simp [parseTag, if_neg hraw, happ]
      have hopts : SpecOptsOk raw := by
        apply (applyOpts_isOk_iff ⟨"", "", "", false, ""⟩ (optItemsOf raw)).mp
        rw [show optItemsOf raw = (splitChar ',' raw.data).tail from rfl, happ]
        rfl
      obtain ⟨hiff, hcomp⟩ := finishTag_spec (uriPartOf raw) t0 hS hF
      refine ⟨?_, ?_⟩
      · rw [hfin]
        constructor
        · intro h
          exact Or.inr (Or.inr (hiff.mp h))
        · rintro (h | h | h)
          · exact absurd h hraw
          · exact absurd hopts h
          · exact hiff.mpr h
      · intro t ht
        rw [hfin] at ht
        exact hcomp t ht

/-! ### Boolean field conversion (for C9)

`setField` (resolver, `case reflect.Bool`) converts the fetched bytes with
`strconv.ParseBool(strings.TrimSpace(s))` and wraps a parse failure in
`ErrConversion`. -/

/-- Go `unicode.IsSpace`: the Latin-1 white space runes plus the Unicode
`White_Space` property for higher code points. -/
def goIsSpace (c : Char) : Bool :=
  let n := c.toNat
  n = 9 || n = 10 || n = 11 || n = 12 || n = 13 || n = 32 || n = 0x85 || n = 0xA0 ||
    n = 0x1680 || (0x2000 ≤ n && n ≤ 0x200A) || n = 0x2028 || n = 0x2029 ||
    n = 0x202F || n = 0x205F || n = 0x3000

/-- Go `strings.TrimSpace`: drop white space runes from both ends. -/
def goTrimSpace (s : String) : String :=
  String.mk (((s.data.dropWhile goIsSpace).reverse.dropWhile goIsSpace).reverse)

/-- Go `strconv.ParseBool`: the switch over the twelve accepted literals. -/
def goParseBool (s : String) : Option Bool :=
  if s = "1" || s = "t" || s = "T" || s = "true" || s = "TRUE" || s = "True" then some true
  else if s = "0" || s = "f" || s = "F" || s = "false" || s = "FALSE" || s = "False" then
    some false
  else none

/-- `ErrConversion` (errors file): field, target type, raw value. The wrapped
underlying error is omitted from the model. -/
structure ConvErr where
  Field : String
  TypeName : String
  Raw : String
deriving DecidableEq

/-- `setField` restricted to a bool-typed field (resolver, lines 823-828):
trim, parse, wrap failures in `ErrConversion`. -/
def setFieldBool (fieldName : String) (raw : String) : Except ConvErr Bool :=
  match goParseBool (goTrimSpace raw) with
  | some b => .ok b
  | none => .error ⟨fieldName, "bool", raw⟩

theorem goParseBool_eq (s : String) :
    goParseBool s =
      (if s ∈ (["1", "t", "T", "true", "TRUE", "True"] : List String) then some true
       else if s ∈ (["0", "f", "F", "false", "FALSE", "False"] : List String) then some false
       else none) := by
  simp only [goParseBool, List.mem_cons, List.not_mem_nil, or_false]
  split_ifs <;> simp_all [Bool.or_eq_true, decide_eq_true_eq]

/-- ASCII case folding, used to state "letter-case variant of". -/
def caseFold (c : Char) : Nat :=
  if 65 ≤ c.toNat && c.toNat ≤ 90 then c.toNat + 32 else c.toNat

/-- Counterexample for C9: `tRue` is a letter-case variant of `true` but the
conversion rejects it, and `1` is accepted although it is not a case variant
of `true` or `false`. -/
theorem setFieldBool_not_case_insensitive :
    ("tRue".data.map caseFold = "true".data.map caseFold
        ∧ setFieldBool "Debug" "tRue" = .error ⟨"Debug", "bool", "tRue"⟩)
      ∧ setFieldBool "Debug" "1" = .ok true := by
  refine ⟨⟨by decide, rfl⟩, rfl⟩

/-- C9 (amended): boolean conversion first trims surrounding white space and
then accepts exactly the `strconv.ParseBool` literals — `1`, `t`, `T`,
`TRUE`, `true`, `True` for true and `0`, `f`, `F`, `FALSE`, `false`, `False`
for false; any other trimmed string yields a `Conversion` error carrying the
raw value. -/
theorem setFieldBool_characterization (name raw : String) :
    setFieldBool name raw =
      (if goTrimSpace raw ∈ (["1", "t", "T", "true", "TRUE", "True"] : List String) then
        .ok true
       else if goTrimSpace raw ∈ (["0", "f", "F", "false", "FALSE", "False"] : List String)
         then .ok false
       else .error ⟨name, "bool", raw⟩) := by
  unfold setFieldBool
  rw [goParseBool_eq]
  split_ifs <;> rfl

/-! ### JSON fragment extraction (`fragment.go`, for C4)

`encoding/json.Unmarshal` into `any` yields a tree of `map[string]any`,
`[]any`, `string`, `float64`, `bool` and `nil`. The tree is modelled by
`JValue`; objects are association lists with the keys unique (Go maps), and
an invalid payload is modelled as `none` at the call site. JSON numbers are
modelled by their exact integer value (`num : Int`): this covers payloads
whose numbers are integer-valued and exactly representable in `float64`,
which is the case addressed by the claim's rendering clause (the source
renders such a value with `strconv.FormatInt(int64(v), 10)`). -/

inductive JValue where
  | str (s : String)
  | num (n : Int)
  | bool (b : Bool)
  | null
  | arr (items : List JValue)
  | obj (fields : List (String × JValue))

/-- Go map lookup on the decoded object (keys are unique). -/
def lookupField : List (String × JValue) → String → Option JValue
  | [], _ => none
  | (k, v) :: rest, key => if k = key then some v else lookupField rest key

/-- Value of a digit run in base 10. -/
def digitsToNat (l : List Char) : Nat :=
  l.foldl (fun acc c => acc * 10 + (c.toNat - 48)) 0

def allDigits (l : List Char) : Bool :=
  l.all (fun c => 48 ≤ c.toNat && c.toNat ≤ 57)

/-- Go `strconv.Atoi`: an optional sign followed by at least one ASCII
digit. Go additionally fails with a range error past `int64`; the model
keeps the exact value, and the only use site range-checks it against an
array length, so the observable outcome agrees. -/
def goAtoi (s : String) : Option Int :=
  match s.data with
  | [] => none
  | c :: rest =>
    let p : Bool × List Char :=
      if c = '-' then (true, rest)
      else if c = '+' then (false, rest) else (false, c :: rest)
    if p.2 ≠ [] && allDigits p.2 then
      some (if p.1 then -(digitsToNat p.2 : Int) else (digitsToNat p.2 : Int))
    else none

/-- Hexadecimal digit (lower case), for `\u00XX` escapes. -/
def hexDigitChar (n : Nat) : Char :=
  Char.ofNat (if n < 10 then 48 + n else 87 + n)

/-- `encoding/json` string escaping (HTML-safe encoder): quote, backslash,
the three HTML runes, control runes, and the two line separators. -/
def escapeChar (c : Char) : List Char :=
  if c = '"' then ['\\', '"']
  else if c = '\\' then ['\\', '\\']
  else if c = '\n' then ['\\', 'n']
  else if c = '\r' then ['\\', 'r']
  else if c = '\t' then ['\\', 't']
  else if c = '<' then "\\u003c".data
  else if c = '>' then "\\u003e".data
  else if c = '&' then "\\u0026".data
  else if c.toNat < 32 then
    '\\' :: 'u' :: '0' :: '0' :: [hexDigitChar (c.toNat / 16), hexDigitChar (c.toNat % 16)]
  else if c.toNat = 0x2028 then "\\u2028".data
  else if c.toNat = 0x2029 then "\\u2029".data
  else [c]

def goEscape (s : String) : String := String.mk (s.data.map escapeChar).flatten

def quoteStr (s : String) : String := "\"" ++ goEscape s ++ "\""

/-- Insertion sort of marshalled object fields by key (Go marshals map keys
in sorted order). -/
def insertByKey (p : String × String) : List (String × String) → List (String × String)
  | [] => [p]
  | q :: rest => if p.1 < q.1 then p :: q :: rest else q :: insertByKey p rest

def sortByKey : List (String × String) → List (String × String)
  | [] => []
  | p :: rest => insertByKey p (sortByKey rest)

mutual

/-- `encoding/json.Marshal` of a decoded tree: compact output, sorted object
keys, HTML-safe escaping. (Go sorts the keys and then encodes each value;
the model encodes each value and then sorts the encoded fields by key,
which produces the same text because fields are encoded independently.) -/
def goMarshal : JValue → String
  | .str s => quoteStr s
  | .num n => toString n
  | .bool b => if b then "true" else "false"
  | .null => "null"
  | .arr items => "[" ++ String.intercalate "," (marshalItems items) ++ "]"
  | .obj fs =>
    "\x7b" ++ String.intercalate ","
      ((sortByKey (marshalFields fs)).map (fun p => quoteStr p.1 ++ ":" ++ p.2)) ++ "\x7d"

def marshalItems : List JValue → List String
  | [] => []
  | v :: rest => goMarshal v :: marshalItems rest

def marshalFields : List (String × JValue) → List (String × String)
  | [] => []
  | (k, v) :: rest => (k, goMarshal v) :: marshalFields rest

end

/-- The leaf rendering switch of `extractFragment` (`fragment.go` lines
51-71): strings verbatim, integer-valued numbers in decimal, booleans as
`true`/`false`, null as `null`, and containers re-marshalled. -/
def renderLeaf : JValue → String
  | .str s => s
  | .num n => toString n
  | .bool b => if b then "true" else "false"
  | .null => "null"
  | .arr items => goMarshal (.arr items)
  | .obj fs => goMarshal (.obj fs)

/-- The walk loop of `extractFragment` (`fragment.go` lines 28-48): object
lookup by key, array indexing after `strconv.Atoi` with an explicit bounds
check, failure on anything else. -/
def walkPath : List String → JValue → Option JValue
  | [], cur => some cur
  | part :: rest, cur =>
    match cur with
    | .obj fs =>
      match lookupField fs part with
      | none => none
      | some v => walkPath rest v
    | .arr items =>
      match goAtoi part with
      | none => none
      | some idx =>
        if idx < 0 ∨ (items.length : Int) ≤ idx then none
        else
          match items.get? idx.toNat with
          | some v => walkPath rest v
          | none => none
    | _ => none

/-- `extractFragment` from `fragment.go`: `none` as first argument stands
for a payload that does not unmarshal; the path is split on `.` and walked,
and the reached leaf is rendered. `none` as a result is any of the source's
errors. -/
def extractFragment (data : Option JValue) (path : String) : Option String :=
  match data with
  | none => none
  | some root =>
    (walkPath ((splitChar '.' path.data).map String.mk) root).map renderLeaf

/-! #### Specification-side description of fragment extraction

Written from the claim's wording: walk each segment — on an object look up
by string key, on an array parse the segment as an integer and take the
element when the index is non-negative and in range, fail on anything else —
and render the reached leaf. The walk is phrased as a monadic fold with a
single step function. -/

/-- Spec-side object lookup: find the field with the given key. -/
def specLookup (fs : List (String × JValue)) (key : String) : Option JValue :=
  (fs.find? (fun p => p.1 == key)).map Prod.snd

/-- Spec-side array access: element at a non-negative in-range base-10
index. -/
def specArrayGet (items : List JValue) (seg : String) : Option JValue :=
  match goAtoi seg with
  | none => none
  | some i => if 0 ≤ i then items.get? i.toNat else none

/-- One walk step of the claim: object by key, array by index, fail on a
scalar. -/
def specStep (cur : JValue) (seg : String) : Option JValue :=
  match cur with
  | .obj fs => specLookup fs seg
  | .arr items => specArrayGet items seg
  | _ => none

/-- Spec-side leaf rendering, in the claim's order: string bytes without
quotes, decimal integer form, `true`/`false`, `null`, compact re-serialized
JSON for containers. -/
def specRender : JValue → String
  | .str s => s
  | .num n => toString n
  | .bool b => cond b "true" "false"
  | .null => "null"
  | .obj fs => goMarshal (.obj fs)
  | .arr items => goMarshal (.arr items)

/-- Spec-side extraction: fold the step over the dotted segments, then
render. -/
def specExtract (root : JValue) (path : String) : Option String :=
  (((splitChar '.' path.data).map String.mk).foldlM specStep root).map specRender

theorem lookupField_eq_specLookup (fs : List (String × JValue)) (key : String) :
    lookupField fs key = specLookup fs key := by
  induction fs with
  | nil => rfl
  | cons p rest ih =>
    obtain ⟨k, v⟩ := p
    by_cases h : k = key
    · simp [lookupField, specLookup, List.find?, h]
    · simp only [lookupField, if_neg h, ih, specLookup, List.find?]
      have hb : (k == key) = false := by simpa using h
      simp [hb]

theorem renderLeaf_eq_specRender (v : JValue) : renderLeaf v = specRender v := by
  cases v with
  | bool b => cases b <;> rfl
  | str s => rfl
  | num n => rfl
  | null => rfl
  | arr items => rfl
  | obj fs => rfl

theorem walkPath_eq_foldlM (segs : List String) :
    ∀ cur : JValue, walkPath segs cur = segs.foldlM specStep cur := by
  induction segs with
  | nil => intro cur; rfl
  | cons seg rest ih =>
    intro cur
    rw [List.foldlM_cons]
    cases cur with
    | str s => simp [walkPath, specStep]
    | num n => simp [walkPath, specStep]
    | bool b => simp [walkPath, specStep]
    | null => simp [walkPath, specStep]
    | obj fs =>
      simp only [walkPath, specStep, lookupField_eq_specLookup]
      cases specLookup fs seg with
      | none => rfl
      | some v => simpa using ih v
    | arr items =>
      simp only [walkPath, specStep, specArrayGet]
      cases hAtoi : goAtoi seg with
      | none => rfl
      | some i =>
        by_cases hneg : i < 0
        · have h0 : ¬ 0 ≤ i := by omega
          simp [if_pos (Or.inl hneg), if_neg h0]
        · have h0 : 0 ≤ i := by omega
          by_cases hlen : (items.length : Int) ≤ i
          · have hnone : items[i.toNat]? = none := by
              apply List.getElem?_eq_none
              omega
            have hcond : (i < 0 ∨ (items.length : Int) ≤ i) := Or.inr hlen
            simp [hnone, hcond, h0]
          · have hlt : i.toNat < items.length := by omega
            have hget : ∃ v, items.get? i.toNat = some v := by
              rw [List.get?_eq_get hlt]
              exact ⟨_, rfl⟩
            obtain ⟨v, hv⟩ := hget
            have hcond : ¬(i < 0 ∨ (items.length : Int) ≤ i) := by omega
            simp only [if_neg hcond, hv, if_pos h0]
            simpa using ih v

/-- C4: for every payload and dotted path, `extractFragment` walks each
segment by string key on objects and by non-negative in-range base-10 index
on arrays, fails on a missing key, an out-of-range or non-integer index, or
a descent into a scalar, and renders the reached leaf as the string's bytes
without quotes, the decimal form of an integer-valued number, `true`/
`false`, `null`, or compact re-serialized JSON for containers; a payload
that is not valid JSON (the `none` payload) fails. -/
theorem extractFragment_spec :
    (∀ path, extractFragment none path = none)
    ∧ (∀ root path, extractFragment (some root) path = specExtract root path) := by
  refine ⟨fun _ => rfl, fun root path => ?_⟩
  simp only [extractFragment, specExtract, walkPath_eq_foldlM]
  cases ((splitChar '.' path.data).map String.mk).foldlM specStep root with
  | none => rfl
  | some v => simp [renderLeaf_eq_specRender]
theorem parseTag_characterization_witness :
    (((",optional" : String) = "" ∨ ¬ SpecOptsOk ",optional" ∨ SpecKeyEmpty ",optional")
      ∧ ((("awssm://" : String) = "" ∨ ¬ SpecOptsOk "awssm://" ∨ SpecKeyEmpty "awssm://")))
    ∧ SpecComponents "awssm://prod/db#password,optional,version=2"
        ⟨"awssm", "prod/db", "password", true, "2"⟩ :=
  ⟨⟨(parseTag_characterization ",optional").1.mp (by rfl),
    (parseTag_characterization "awssm://").1.mp (by rfl)⟩,
   (parseTag_characterization "awssm://prod/db#password,optional,version=2").2
     ⟨"awssm", "prod/db", "password", true, "2"⟩ (by rfl)⟩

/-! ### The resolver's fetch plan and assignment phases (for C1, C2, C3)

`Resolver.Resolve` runs in three phases: collect `fieldInfo`s, build a
deduplicated fetch plan and run it, then assign results field by field.
Providers are modelled as response functions; `getVersion = none` models a
provider that does not implement `VersionedProvider`. The error identity
test `errors.Is(err, ErrNotFound)` is modelled by equality with the
`notFound` constructor. Field slots are instantiated at string type (the
`reflect.String` case of `setField`, which stores the bytes verbatim and
never fails), so an assignment is a `(slot name, bytes)` pair. -/

inductive FetchErr where
  | notFound
  | versioningNotSupported (field provider : String)
  | other (msg : String)
deriving DecidableEq

/-- The `(data, err)` pair returned by a provider call. -/
abbrev FetchOutcome := Except FetchErr String

/-- A provider: `Get` always, `GetVersion` when the provider implements
`VersionedProvider`. -/
structure ProviderM where
  get : String → FetchOutcome
  getVersion : Option (String → String → FetchOutcome)

/-- `fieldInfo` from the resolver: metadata of one tagged field. -/
structure fieldInfoM where
  fieldName : String
  tag : parsedTag
  provider : ProviderM
  providerName : String
  isVersioned : Bool

/-- `fetchKey`: the `(uri, version)` pair identifying one fetch. -/
structure fetchKey where
  uri : String
  version : String
deriving DecidableEq

/-- `fetchKey.String()`: `uri@version` when the version is non-empty,
otherwise the bare uri. Deduplication keys the `seen` set and the results
map by this rendering. -/
def fkString (fk : fetchKey) : String :=
  if fk.version ≠ "" then fk.uri ++ "@" ++ fk.version else fk.uri

/-- The fetch keys one field requires (Resolve, plan-building loop):
a versioned pair needs the current and `previous` keys, any other field one
key carrying its tag's version. -/
def requiredKeys (fi : fieldInfoM) : List fetchKey :=
  if fi.isVersioned then
    [⟨tagURI fi.tag, ""⟩, ⟨tagURI fi.tag, "previous"⟩]
  else
    [⟨tagURI fi.tag, fi.tag.Version⟩]

/-- `fetchSpec`: one planned fetch, carrying the field that first required
it. -/
structure fetchSpec where
  key : fetchKey
  fi : fieldInfoM
  version : String

/-- Add one key to the plan unless its rendering was already seen
(Resolve, lines 501-514). -/
def addKey (fi : fieldInfoM) (st : List String × List fetchSpec) (k : fetchKey) :
    List String × List fetchSpec :=
  if fkString k ∈ st.1 then st
  else (st.1 ++ [fkString k], st.2 ++ [⟨k, fi, k.version⟩])

def planStep (st : List String × List fetchSpec) (fi : fieldInfoM) :
    List String × List fetchSpec :=
  (requiredKeys fi).foldl (addKey fi) st

/-- The plan-building loop of `Resolve` (phase 2): fold over the fields,
deduplicating by `fetchKey.String()`. -/
def planFields (fields : List fieldInfoM) : List String × List fetchSpec :=
  fields.foldl planStep ([], [])

def buildSpecs (fields : List fieldInfoM) : List fetchSpec :=
  (planFields fields).2

/-- One fetch goroutine (Resolve, lines 531-545): an empty version
dispatches `Get`; a non-empty version requires the `VersionedProvider`
capability and dispatches `GetVersion`, failing with
`ErrVersioningNotSupported` when absent. -/
def runSpec (s : fetchSpec) : FetchOutcome :=
  if s.version ≠ "" then
    match s.fi.provider.getVersion with
    | none => .error (.versioningNotSupported s.fi.fieldName s.fi.providerName)
    | some gv => gv s.fi.tag.Key s.version
  else s.fi.provider.get s.fi.tag.Key

/-- A record of one provider call made by the scheduler. -/
structure CallRec where
  providerName : String
  key : String
  version : String
  viaGetVersion : Bool
deriving DecidableEq

/-- The provider calls one planned fetch performs: exactly one, except that
a missing `VersionedProvider` capability fails without calling. -/
def specCalls (s : fetchSpec) : List CallRec :=
  if s.version ≠ "" then
    match s.fi.provider.getVersion with
    | none => []
    | some _ => [⟨s.fi.providerName, s.fi.tag.Key, s.version, true⟩]
  else [⟨s.fi.providerName, s.fi.tag.Key, "", false⟩]

/-- All provider calls of one `Resolve`. -/
def totalCalls (fields : List fieldInfoM) : List CallRec :=
  (buildSpecs fields).flatMap specCalls

/-- The results map of phase 2, keyed by `fetchKey.String()` (the map write
order is scheduler-dependent, but the keys are distinct so the final map is
this association list). -/
def runResults (fields : List fieldInfoM) : List (String × FetchOutcome) :=
  (buildSpecs fields).map (fun s => (fkString s.key, runSpec s))

def alookup : List (String × FetchOutcome) → String → Option FetchOutcome
  | [], _ => none
  | (k, v) :: rest, key => if k = key then some v else alookup rest key

/-- `results[fk.String()]` in phase 3. In Go a missing entry would be a nil
dereference; the plan guarantees every needed key is present, so the
default branch is unreachable. -/
def getResult (results : List (String × FetchOutcome)) (k : String) : FetchOutcome :=
  match alookup results k with
  | some r => r
  | none => .error (.other "missing fetch result")

inductive FieldErrKind where
  | fetch (e : FetchErr)
  | frag
deriving DecidableEq

/-- A per-field error as collected into `assignErrs` (each is wrapped with
the field name by `fmt.Errorf`). -/
structure FieldErr where
  field : String
  kind : FieldErrKind
deriving DecidableEq

/-- Fragment handling before assignment (Resolve, lines 632-640): the bytes
pass through `extractFragment` only when the tag carries a fragment;
`extract` stands for `extractFragment` on the fetched payload, `none`
being an extraction error. -/
def applyFragment (extract : String → String → Option String) (frag : String)
    (data : String) : Option String :=
  if frag = "" then some data else extract data frag

/-- Phase 3 of `Resolve` for one field (lines 556-646): the assignments
`(slot, bytes)` performed and the errors appended for this field. -/
def assignField (extract : String → String → Option String)
    (results : List (String × FetchOutcome)) (fi : fieldInfoM) :
    List (String × String) × List FieldErr :=
  let uri := tagURI fi.tag
  if fi.isVersioned then
    match getResult results (fkString ⟨uri, ""⟩) with
    | .error e =>
      if fi.tag.Optional ∧ e = .notFound then ([], [])
      else ([], [⟨fi.fieldName, .fetch e⟩])
    | .ok cur =>
      match applyFragment extract fi.tag.Fragment cur with
      | none => ([], [⟨fi.fieldName, .frag⟩])
      | some curVal =>
        match getResult results (fkString ⟨uri, "previous"⟩) with
        | .error e' =>
          if e' = .notFound then ([(fi.fieldName ++ ".Current", curVal)], [])
          else ([(fi.fieldName ++ ".Current", curVal)], [⟨fi.fieldName, .fetch e'⟩])
        | .ok prev =>
          match applyFragment extract fi.tag.Fragment prev with
          | none => ([(fi.fieldName ++ ".Current", curVal)], [⟨fi.fieldName, .frag⟩])
          | some prevVal =>
            ([(fi.fieldName ++ ".Current", curVal),
              (fi.fieldName ++ ".Previous", prevVal)], [])
  else
    match getResult results (fkString ⟨uri, fi.tag.Version⟩) with
    | .error e =>
      if fi.tag.Optional ∧ e = .notFound then ([], [])
      else ([], [⟨fi.fieldName, .fetch e⟩])
    | .ok data =>
      match applyFragment extract fi.tag.Fragment data with
      | none => ([], [⟨fi.fieldName, .frag⟩])
      | some v => ([(fi.fieldName, v)], [])

/-- Phase 3 over all fields, in walker order. -/
def resolveAssign (extract : String → String → Option String)
    (fields : List fieldInfoM) : List (String × String) × List FieldErr :=
  let results := runResults fields
  fields.foldl
    (fun acc fi =>
      let r := assignField extract results fi
      (acc.1 ++ r.1, acc.2 ++ r.2))
    ([], [])

/-! #### The deduplication behaviour of the plan (C1) -/

/-- First-occurrence deduplication relative to an already-seen set. -/
def dedupFirstAux (seen : List String) : List String → List String
  | [] => []
  | x :: xs => if x ∈ seen then dedupFirstAux seen xs else x :: dedupFirstAux (x :: seen) xs

/-- Keep the first occurrence of every string. -/
def dedupFirst (l : List String) : List String := dedupFirstAux [] l

/-- The plan state is aligned: the seen set lists exactly the renderings of
the planned specs, in order. -/
def Aligned (st : List String × List fetchSpec) : Prop :=
  st.1 = st.2.map (fun s => fkString s.key)

theorem aligned_addKey {st : List String × List fetchSpec} (fi : fieldInfoM)
    (k : fetchKey) (h : Aligned st) : Aligned (addKey fi st k) := by
  unfold Aligned at h ⊢
  unfold addKey
  split
  · exact h
  · simp [h]

theorem aligned_flatFold (L : List (fieldInfoM × fetchKey)) :
    ∀ st, Aligned st → Aligned (L.foldl (fun st p => addKey p.1 st p.2) st) := by
  induction L with
  | nil => intro st h; exact h
  | cons p rest ih =>
    intro st h
    exact ih _ (aligned_addKey p.1 p.2 h)

theorem dedupFirstAux_congr {seen₁ seen₂ : List String}
    (h : ∀ x, x ∈ seen₁ ↔ x ∈ seen₂) (l : List String) :
    dedupFirstAux seen₁ l = dedupFirstAux seen₂ l := by
  induction l generalizing seen₁ seen₂ with
  | nil => rfl
  | cons x xs ih =>
    simp only [dedupFirstAux]
    by_cases hx : x ∈ seen₁
    · rw [if_pos hx, if_pos ((h x).mp hx)]
      exact ih h
    · rw [if_neg hx, if_neg (fun hc => hx ((h x).mpr hc))]
      refine congrArg (x :: ·) (ih ?_)
      intro y
      simp [h y]

theorem flatFold_seen (L : List (fieldInfoM × fetchKey)) :
    ∀ st : List String × List fetchSpec,
      (L.foldl (fun st p => addKey p.1 st p.2) st).1 =
        st.1 ++ dedupFirstAux st.1 (L.map fun p => fkString p.2) := by
  induction L with
  | nil => intro st; simp [dedupFirstAux]
  | cons p rest ih =>
    intro st
    simp only [List.foldl_cons, List.map_cons, dedupFirstAux]
    by_cases hx : fkString p.2 ∈ st.1
    · rw [if_pos hx]
      have haddeq : addKey p.1 st p.2 = st := by simp [addKey, hx]
      rw [haddeq, ih st]
    · rw [if_neg hx]
      have haddeq : addKey p.1 st p.2 =
          (st.1 ++ [fkString p.2], st.2 ++ [⟨p.2, p.1, p.2.version⟩]) := by
        simp [addKey, hx]
      rw [haddeq, ih]
      have hcong : dedupFirstAux (st.1 ++ [fkString p.2]) (rest.map fun p => fkString p.2) =
          dedupFirstAux (fkString p.2 :: st.1) (rest.map fun p => fkString p.2) := by
        apply dedupFirstAux_congr
        intro y
        simp [or_comm]
      rw [hcong]
      simp

theorem flatFold_specs_sources (L : List (fieldInfoM × fetchKey)) :
    ∀ st : List String × List fetchSpec,
      ∀ s ∈ (L.foldl (fun st p => addKey p.1 st p.2) st).2,
        s ∈ st.2 ∨ ∃ p ∈ L, s = ⟨p.2, p.1, p.2.version⟩ := by
  induction L with
  | nil => intro st s hs; exact Or.inl hs
  | cons p rest ih =>
    intro st s hs
    simp only [List.foldl_cons] at hs
    rcases ih (addKey p.1 st p.2) s hs with hmem | ⟨q, hq, rfl⟩
    · unfold addKey at hmem
      split at hmem
      · exact Or.inl hmem
      · rcases List.mem_append.mp hmem with h1 | h1
        · exact Or.inl h1
        · refine Or.inr ⟨p, List.mem_cons_self _ _, ?_⟩
          simpa using h1
    · exact Or.inr ⟨q, List.mem_cons_of_mem _ hq, rfl⟩

/-- The flattened key list of the plan-building loop. -/
def taggedKeys (fields : List fieldInfoM) : List (fieldInfoM × fetchKey) :=
  fields.flatMap fun fi => (requiredKeys fi).map (fun k => (fi, k))

theorem planFields_flat (fields : List fieldInfoM) :
    ∀ st, fields.foldl planStep st =
      (taggedKeys fields).foldl (fun st p => addKey p.1 st p.2) st := by
  induction fields with
  | nil => intro st; rfl
  | cons fi rest ih =>
    intro st
    have h1 : taggedKeys (fi :: rest) =
        ((requiredKeys fi).map fun k => (fi, k)) ++ taggedKeys rest := by
      simp [taggedKeys]
    rw [List.foldl_cons, h1, List.foldl_append, List.foldl_map]
    exact ih _

theorem mem_dedupFirstAux (l : List String) :
    ∀ (seen : List String) (x : String),
      x ∈ dedupFirstAux seen l ↔ x ∈ l ∧ x ∉ seen := by
  induction l with
  | nil => intro seen x; simp [dedupFirstAux]
  | cons y ys ih =>
    intro seen x
    simp only [dedupFirstAux]
    by_cases hy : y ∈ seen
    · rw [if_pos hy, ih]
      simp only [List.mem_cons]
      constructor
      · rintro ⟨hx, hns⟩; exact ⟨Or.inr hx, hns⟩
      · rintro ⟨hx | hx, hns⟩
        · subst hx; exact absurd hy hns
        · exact ⟨hx, hns⟩
    · rw [if_neg hy]
      simp only [List.mem_cons]
      constructor
      · rintro (rfl | hmem)
        · exact ⟨Or.inl rfl, hy⟩
        · obtain ⟨hx, hns⟩ := (ih (y :: seen) x).mp hmem
          exact ⟨Or.inr hx, fun hc => hns (List.mem_cons_of_mem _ hc)⟩
      · rintro ⟨hx | hx, hns⟩
        · exact Or.inl hx
        · by_cases hxy : x = y
          · exact Or.inl hxy
          · refine Or.inr ((ih _ x).mpr ⟨hx, ?_⟩)
            simp only [List.mem_cons, not_or]
            exact ⟨hxy, hns⟩

theorem nodup_dedupFirstAux (l : List String) :
    ∀ seen : List String, (dedupFirstAux seen l).Nodup := by
  induction l with
  | nil => intro seen; simp [dedupFirstAux]
  | cons y ys ih =>
    intro seen
    simp only [dedupFirstAux]
    by_cases hy : y ∈ seen
    · rw [if_pos hy]; exact ih seen
    · rw [if_neg hy]
      refine List.Nodup.cons ?_ (ih (y :: seen))
      intro hc
      obtain ⟨-, hns⟩ := (mem_dedupFirstAux ys (y :: seen) y).mp hc
      exact hns (List.mem_cons_self _ _)

theorem taggedKeys_renderings (fields : List fieldInfoM) :
    (taggedKeys fields).map (fun p => fkString p.2) =
      (fields.flatMap requiredKeys).map fkString := by
  induction fields with
  | nil => rfl
  | cons fi rest ih =>
    simp only [taggedKeys, List.flatMap_cons, List.map_append, List.map_map] at ih ⊢
    rw [ih]
    rfl

theorem buildSpecs_renderings (fields : List fieldInfoM) :
    (buildSpecs fields).map (fun s => fkString s.key) =
      dedupFirst ((fields.flatMap requiredKeys).map fkString) := by
  have hflat := planFields_flat fields ([], [])
  have halign : Aligned (planFields fields) := by
    rw [show planFields fields = fields.foldl planStep ([], []) from rfl, hflat]
    refine aligned_flatFold _ ([], []) ?_
    simp [Aligned]
  have hseen := flatFold_seen (taggedKeys fields) ([], [])
  unfold Aligned at halign
  have h1 : (buildSpecs fields).map (fun s => fkString s.key) = (planFields fields).1 :=
    halign.symm
  rw [h1, show planFields fields = _ from hflat]
  rw [hseen]
  simp only [List.nil_append]
  unfold dedupFirst
  rw [taggedKeys_renderings]

theorem buildSpecs_sources (fields : List fieldInfoM) :
    ∀ s ∈ buildSpecs fields,
      ∃ fi ∈ fields, s.fi = fi ∧ s.key ∈ requiredKeys fi ∧ s.version = s.key.version := by
  intro s hs
  have hs2 : s ∈ ((taggedKeys fields).foldl (fun st p => addKey p.1 st p.2) ([], [])).2 := by
    rw [← planFields_flat fields ([], [])]
    exact hs
  rcases flatFold_specs_sources (taggedKeys fields) ([], []) s hs2 with hmem | ⟨p, hp, rfl⟩
  · simp at hmem
  · obtain ⟨fi, hfi, hpk⟩ := List.mem_flatMap.mp hp
    obtain ⟨k, hk, rfl⟩ := List.mem_map.mp hpk
    exact ⟨fi, hfi, rfl, hk, rfl⟩

/-- C1 (amended): within one `Resolve`, fetches are deduplicated by the
textual rendering `fetchKey.String()` — `uri` for an empty version,
`uri@version` otherwise — not by the `(uri, version)` pair itself: the plan
contains exactly one fetch per distinct rendering of the keys the fields
require (the first requiring field supplies the provider and key), an empty
version is dispatched via `Get`, and a non-empty version via `GetVersion`
when the provider is version-capable (failing without a call otherwise).
Distinct pairs with equal renderings therefore share one fetch. -/
theorem fetch_dedup_by_rendering (fields : List fieldInfoM) :
    ((buildSpecs fields).map (fun s => fkString s.key) =
        dedupFirst ((fields.flatMap requiredKeys).map fkString))
    ∧ ((buildSpecs fields).map (fun s => fkString s.key)).Nodup
    ∧ (∀ k ∈ fields.flatMap requiredKeys,
        fkString k ∈ (buildSpecs fields).map (fun s => fkString s.key))
    ∧ (∀ s ∈ buildSpecs fields,
        s.version = s.key.version
        ∧ (∃ fi ∈ fields, s.fi = fi ∧ s.key ∈ requiredKeys fi)
        ∧ (s.version = "" →
            runSpec s = s.fi.provider.get s.fi.tag.Key
            ∧ specCalls s = [⟨s.fi.providerName, s.fi.tag.Key, "", false⟩])
        ∧ (s.version ≠ "" →
            (s.fi.provider.getVersion = none →
              runSpec s = .error (.versioningNotSupported s.fi.fieldName s.fi.providerName)
              ∧ specCalls s = [])
            ∧ ∀ gv, s.fi.provider.getVersion = some gv →
              runSpec s = gv s.fi.tag.Key s.version
              ∧ specCalls s = [⟨s.fi.providerName, s.fi.tag.Key, s.version, true⟩])) := by
  refine ⟨buildSpecs_renderings fields, ?_, ?_, ?_⟩
  · rw [buildSpecs_renderings fields]
    exact nodup_dedupFirstAux _ []
  · intro k hk
    rw [buildSpecs_renderings fields]
    exact (mem_dedupFirstAux _ _ _).mpr ⟨List.mem_map_of_mem _ hk, by simp⟩
  · intro s hs
    obtain ⟨fi, hfi, hsfi, hkey, hver⟩ := buildSpecs_sources fields s hs
    refine ⟨hver, ⟨fi, hfi, hsfi, hkey⟩, ?_, ?_⟩
    · intro hv
      constructor
      · simp [runSpec, hv]
      · simp [specCalls, hv]
    · intro hv
      constructor
      · intro hno
        constructor
        · simp [runSpec, hv, hno]
        · simp [specCalls, hv, hno]
      · intro gv hgv
        constructor
        · simp [runSpec, hv, hgv]
        · simp [specCalls, hv, hgv]

/-- A provider answering every request, used for concrete instances. -/
def dummyProvider : ProviderM :=
  ⟨fun _ => .ok "v", some fun _ _ => .ok "w"⟩

/-- A field task produced by the tag `a@b`. -/
def fiAtB : fieldInfoM :=
  ⟨"A", ⟨"", "a@b", "", false, ""⟩, dummyProvider, "default", false⟩

/-- A field task produced by the tag `a,version=b`. -/
def fiAvB : fieldInfoM :=
  ⟨"B", ⟨"", "a", "", false, "b"⟩, dummyProvider, "default", false⟩

/-- Counterexample for C1: the tasks from tags `a@b` and `a,version=b` have
different `(canonical URI, version)` pairs — `("a@b", "")` and `("a", "b")`
— but their renderings coincide, so the plan dispatches a single fetch (one
`Get` of key `a@b`) instead of two separate fetches. -/
theorem fetch_dedup_pair_collision :
    parseTag "a@b" = .ok fiAtB.tag
    ∧ parseTag "a,version=b" = .ok fiAvB.tag
    ∧ requiredKeys fiAtB = [⟨"a@b", ""⟩]
    ∧ requiredKeys fiAvB = [⟨"a", "b"⟩]
    ∧ (⟨"a@b", ""⟩ : fetchKey) ≠ (⟨"a", "b"⟩ : fetchKey)
    ∧ fkString ⟨"a@b", ""⟩ = fkString ⟨"a", "b"⟩
    ∧ (buildSpecs [fiAtB, fiAvB]).length = 1
    ∧ totalCalls [fiAtB, fiAvB] = [⟨"default", "a@b", "", false⟩] := by
  refine ⟨rfl, rfl, rfl, rfl, by decide, by decide, rfl, rfl⟩

/-- Witness for C1 (amended): the plan for the two colliding tasks carries
the shared rendering exactly once, and the planned fetch dispatches via
`Get`. -/
theorem fetch_dedup_by_rendering_witness :
    fkString (⟨"a@b", ""⟩ : fetchKey) ∈
        (buildSpecs [fiAtB, fiAvB]).map (fun s => fkString s.key)
    ∧ ((buildSpecs [fiAtB, fiAvB]).map (fun s => fkString s.key)).Nodup := by
  constructor
  · exact (fetch_dedup_by_rendering [fiAtB, fiAvB]).2.2.1 ⟨"a@b", ""⟩ (by decide)
  · exact (fetch_dedup_by_rendering [fiAtB, fiAvB]).2.1

/-- The key of a field's current-value fetch: the current key of a
versioned pair, the tag's own `(uri, version)` key otherwise. -/
def primaryKey (fi : fieldInfoM) : fetchKey :=
  if fi.isVersioned then ⟨tagURI fi.tag, ""⟩ else ⟨tagURI fi.tag, fi.tag.Version⟩

/-- C2: a field whose tag carries `optional` and whose current-value fetch
result is the `NotFound` sentinel is skipped by the assignment phase — no
slot is written and no error is contributed for that field, so the joined
error of `Resolve` does not mention it; a non-`NotFound` fetch error on an
optional field still becomes a per-field error. -/
theorem optional_notFound_skipped
    (extract : String → String → Option String)
    (results : List (String × FetchOutcome)) (fi : fieldInfoM)
    (hopt : fi.tag.Optional = true) :
    (getResult results (fkString (primaryKey fi)) = .error .notFound →
        assignField extract results fi = ([], []))
    ∧ (∀ e, e ≠ FetchErr.notFound →
        getResult results (fkString (primaryKey fi)) = .error e →
        assignField extract results fi = ([], [⟨fi.fieldName, .fetch e⟩])) := by
  cases hv : fi.isVersioned with
  | false =>
    have hpk : primaryKey fi = ⟨tagURI fi.tag, fi.tag.Version⟩ := by
      simp [primaryKey, hv]
    constructor
    · intro h
      rw [hpk] at h
      simp [assignField, hv, h, hopt]
    · intro e he h
      rw [hpk] at h
      simp [assignField, hv, h, hopt, he]
  | true =>
    have hpk : primaryKey fi = ⟨tagURI fi.tag, ""⟩ := by
      simp [primaryKey, hv]
    constructor
    · intro h
      rw [hpk] at h
      simp [assignField, hv, h, hopt]
    · intro e he h
      rw [hpk] at h
      simp [assignField, hv, h, hopt, he]

/-- An optional bare-key field task (`tag secret:"k,optional"`). -/
def fiOpt : fieldInfoM :=
  ⟨"C", ⟨"", "k", "", true, ""⟩, dummyProvider, "default", false⟩

/-- Witness for C2: with a `NotFound` result the optional field contributes
no assignment and no error; with another error it contributes exactly its
per-field error. -/
theorem optional_notFound_skipped_witness :
    assignField (fun _ _ => none) [("k", .error .notFound)] fiOpt = ([], [])
    ∧ assignField (fun _ _ => none) [("k", .error (.other "boom"))] fiOpt
        = ([], [⟨"C", .fetch (.other "boom")⟩]) := by
  constructor
  · exact (optional_notFound_skipped (fun _ _ => none) _ fiOpt rfl).1 rfl
  · exact (optional_notFound_skipped (fun _ _ => none) _ fiOpt rfl).2
      (.other "boom") (by simp) rfl

/-- C3: a versioned-pair field requires exactly the fetch keys `(uri, "")`
and `(uri, "previous")`, and any plan containing the field dispatches both;
when the current fetch succeeds and the previous fetch fails with the
`NotFound` sentinel, the `Current` slot receives the current bytes (after
fragment extraction when a fragment is present), the `Previous` slot is not
written, and no error is reported for the field. -/
theorem versionedPair_previous_notFound
    (extract : String → String → Option String)
    (fields : List fieldInfoM) (results : List (String × FetchOutcome))
    (fi : fieldInfoM) (hv : fi.isVersioned = true) :
    requiredKeys fi = [⟨tagURI fi.tag, ""⟩, ⟨tagURI fi.tag, "previous"⟩]
    ∧ (fi ∈ fields →
        fkString ⟨tagURI fi.tag, ""⟩ ∈ (buildSpecs fields).map (fun s => fkString s.key)
        ∧ fkString ⟨tagURI fi.tag, "previous"⟩ ∈
            (buildSpecs fields).map (fun s => fkString s.key))
    ∧ (∀ cur v,
        getResult results (fkString ⟨tagURI fi.tag, ""⟩) = .ok cur →
        getResult results (fkString ⟨tagURI fi.tag, "previous"⟩) = .error .notFound →
        applyFragment extract fi.tag.Fragment cur = some v →
        assignField extract results fi = ([(fi.fieldName ++ ".Current", v)], [])) := by
  refine ⟨by simp [requiredKeys, hv], ?_, ?_⟩
  · intro hfi
    constructor
    · apply (fetch_dedup_by_rendering fields).2.2.1
      exact List.mem_flatMap.mpr ⟨fi, hfi, by simp [requiredKeys, hv]⟩
    · apply (fetch_dedup_by_rendering fields).2.2.1
      exact List.mem_flatMap.mpr ⟨fi, hfi, by simp [requiredKeys, hv]⟩
  · intro cur v hc hp hfrag
    simp [assignField, hv, hc, hp, hfrag]

/-- A versioned-pair field task (`Versioned[T]` field with tag
`secret:"k"`). -/
def fiVer : fieldInfoM :=
  ⟨"D", ⟨"", "k", "", false, ""⟩, dummyProvider, "default", true⟩

/-- Witness for C3: a versioned field with a successful current fetch and a
`NotFound` previous fetch sets only the `Current` slot and reports no
error. -/
theorem versionedPair_previous_notFound_witness :
    requiredKeys fiVer = [⟨"k", ""⟩, ⟨"k", "previous"⟩]
    ∧ assignField (fun _ _ => none)
        [("k", .ok "cur"), ("k@previous", .error .notFound)] fiVer
        = ([("D.Current", "cur")], []) := by
  constructor
  · exact (versionedPair_previous_notFound (fun _ _ => none) [] [] fiVer rfl).1
  · exact (versionedPair_previous_notFound (fun _ _ => none) [fiVer]
      [("k", .ok "cur"), ("k@previous", .error .notFound)] fiVer rfl).2.2
      "cur" "cur" rfl rfl rfl

/-! ### `CachedProvider` (for C6)

TTL memoization around a provider. Time is a `Nat` parameter standing for
`time.Now()`; entry freshness in `CachedProvider.get` is
`!time.Now().After(entry.expires)`, i.e. `now ≤ expires`. A successful call
through stores `(data, now + ttl)`; the same `now` is used for the check and
the store (the two `time.Now()` calls of the source are nanoseconds apart
and independent of the claim). -/

structure CacheEntry where
  data : String
  expires : Nat
deriving DecidableEq

/-- Go map lookup in `CachedProvider.entries`. -/
def lookupEntry : List (String × CacheEntry) → String → Option CacheEntry
  | [], _ => none
  | (k, e) :: rest, key => if k = key then some e else lookupEntry rest key

/-- Go map store in `CachedProvider.set` (replaces an existing entry). -/
def insertEntry : List (String × CacheEntry) → String → CacheEntry → List (String × CacheEntry)
  | [], k, e => [(k, e)]
  | (k', e') :: rest, k, e =>
    if k' = k then (k, e) :: rest else (k', e') :: insertEntry rest k e

/-- `CachedProvider.get` (the read path): the cached bytes when an entry
exists and `now` is not after its expiry. -/
def cacheFresh (entries : List (String × CacheEntry)) (now : Nat) (key : String) :
    Option String :=
  match lookupEntry entries key with
  | none => none
  | some e => if now > e.expires then none else some e.data

/-- A call made to the underlying provider. -/
inductive UnderCall where
  | get (key : String)
  | getVersion (key version : String)
deriving DecidableEq

/-- `CachedProvider.Get`: serve fresh cache, otherwise call through and
store only a successful result. -/
def cachedGet (p : ProviderM) (ttl now : Nat) (entries : List (String × CacheEntry))
    (key : String) : FetchOutcome × List (String × CacheEntry) × List UnderCall :=
  match cacheFresh entries now key with
  | some data => (.ok data, entries, [])
  | none =>
    match p.get key with
    | .error e => (.error e, entries, [.get key])
    | .ok data => (.ok data, insertEntry entries key ⟨data, now + ttl⟩, [.get key])

/-- `CachedProvider.GetVersion` cache key: `key + "\x00" + version`. -/
def cacheKeyV (key version : String) : String := key ++ "\x00" ++ version

/-- `CachedProvider.GetVersion`: fail with the not-supported kind when the
underlying provider is not version-capable; otherwise cache under
`cacheKeyV`. -/
def cachedGetVersion (p : ProviderM) (ttl now : Nat)
    (entries : List (String × CacheEntry)) (key version : String) :
    FetchOutcome × List (String × CacheEntry) × List UnderCall :=
  match p.getVersion with
  | none => (.error (.versioningNotSupported "" "cached"), entries, [])
  | some gv =>
    match cacheFresh entries now (cacheKeyV key version) with
    | some data => (.ok data, entries, [])
    | none =>
      match gv key version with
      | .error e => (.error e, entries, [.getVersion key version])
      | .ok data =>
        (.ok data, insertEntry entries (cacheKeyV key version) ⟨data, now + ttl⟩,
          [.getVersion key version])

/-- C6 (amended): `Get` returns the cached bytes without an underlying call
whenever an entry exists and the current time is not after its expiry
(`now ≤ expiry` — at the exact expiry instant the cache still serves);
otherwise — no entry, or `expiry < now` — it calls through, stores
`(bytes, now+ttl)` only on success, and an error leaves the cache
unchanged. `GetVersion` fails with the versioning-not-supported kind when
the underlying provider is not version-capable; its cache key joins key and
version with a NUL byte, which cannot equal any unversioned key that
contains no NUL byte (an unversioned key containing NUL can collide). -/
theorem cachedProvider_characterization (p : ProviderM) (ttl now : Nat)
    (entries : List (String × CacheEntry)) (key : String) :
    (∀ e, lookupEntry entries key = some e → now ≤ e.expires →
        cachedGet p ttl now entries key = (.ok e.data, entries, []))
    ∧ (cacheFresh entries now key = none →
        cachedGet p ttl now entries key =
          (match p.get key with
           | .error er => (.error er, entries, [.get key])
           | .ok data => (.ok data, insertEntry entries key ⟨data, now + ttl⟩, [.get key])))
    ∧ (cacheFresh entries now key = none ↔
        lookupEntry entries key = none
          ∨ ∃ e, lookupEntry entries key = some e ∧ e.expires < now)
    ∧ (p.getVersion = none → ∀ version,
        cachedGetVersion p ttl now entries key version
          = (.error (.versioningNotSupported "" "cached"), entries, []))
    ∧ (∀ gv version, p.getVersion = some gv →
        cachedGetVersion p ttl now entries key version =
          (match cacheFresh entries now (cacheKeyV key version) with
           | some data => (.ok data, entries, [])
           | none =>
             match gv key version with
             | .error er => (.error er, entries, [.getVersion key version])
             | .ok data =>
               (.ok data, insertEntry entries (cacheKeyV key version) ⟨data, now + ttl⟩,
                 [.getVersion key version])))
    ∧ (∀ version key', Char.ofNat 0 ∉ key'.data → cacheKeyV key version ≠ key') := by
  refine ⟨?_, ?_, ?_, ?_, ?_, ?_⟩
  · intro e he hle
    have hfresh : cacheFresh entries now key = some e.data := by
      simp [cacheFresh, he, Nat.not_lt.mpr hle]
    simp [cachedGet, hfresh]
  · intro hnone
    simp [cachedGet, hnone]
  · unfold cacheFresh
    cases he : lookupEntry entries key with
    | none => simp
    | some e =>
      simp only [he]
      constructor
      · intro h
        split at h
        · exact Or.inr ⟨e, rfl, by assumption⟩
        · exact absurd h (by simp)
      · rintro (h | ⟨e', he', hlt⟩)
        · exact absurd h (by simp)
        · injection he' with he''
          subst he''
          simp [hlt]
  · intro hno version
    simp [cachedGetVersion, hno]
  · intro gv version hgv
    simp [cachedGetVersion, hgv]
  · intro version key' hnul heq
    apply hnul
    rw [← heq]
    show Char.ofNat 0 ∈ (cacheKeyV key version).data
    unfold cacheKeyV
    rw [String.data_append, String.data_append]
    exact List.mem_append_left _ (List.mem_append_right _ (by simp [String.data]))

/-- A provider whose `Get` always answers `new` and which has no
`GetVersion` capability. -/
def freshProvider : ProviderM := ⟨fun _ => .ok "new", none⟩

/-- Counterexample for C6: at `now` exactly equal to the entry's expiry the
cache still serves (the claim's "otherwise it calls through" requires a
call here since `now < expiry` fails); and the versioned cache key
`cacheKeyV "a" "b"` is the plain string `a\x00b`, so a `Get` of the
NUL-containing key `a\x00b` serves a value stored by
`GetVersion("a", "b")` — the entries collide. -/
theorem cachedGet_boundary_and_collision :
    (¬ ((5 : Nat) < 5)
      ∧ cachedGet freshProvider 10 5 [("k", ⟨"old", 5⟩)] "k"
          = (.ok "old", [("k", ⟨"old", 5⟩)], []))
    ∧ cacheKeyV "a" "b" = "a\x00b"
    ∧ cachedGetVersion dummyProvider 10 0 [] "a" "b"
        = (.ok "w", [("a\x00b", ⟨"w", 10⟩)], [.getVersion "a" "b"])
    ∧ cachedGet freshProvider 10 0 [("a\x00b", ⟨"w", 10⟩)] "a\x00b"
        = (.ok "w", [("a\x00b", ⟨"w", 10⟩)], []) := by
  exact ⟨⟨by decide, rfl⟩, rfl, rfl, rfl⟩

/-- Witness for C6 (amended): a fresh entry is served from cache without an
underlying call; a missing entry calls through and stores the result; a
version request against a non-capable provider fails with the
not-supported kind. -/
theorem cachedProvider_characterization_witness :
    cachedGet freshProvider 10 5 [("k", ⟨"old", 5⟩)] "k"
        = (.ok "old", [("k", ⟨"old", 5⟩)], [])
    ∧ cachedGet freshProvider 10 7 [] "k"
        = (.ok "new", [("k", ⟨"new", 17⟩)], [.get "k"])
    ∧ cachedGetVersion freshProvider 10 0 [] "k" "2"
        = (.error (.versioningNotSupported "" "cached"), [], []) := by
  refine ⟨?_, ?_, ?_⟩
  · exact (cachedProvider_characterization freshProvider 10 5 _ "k").1 ⟨"old", 5⟩ rfl
      (by decide)
  · exact (cachedProvider_characterization freshProvider 10 7 [] "k").2.1 rfl
  · exact (cachedProvider_characterization freshProvider 10 0 [] "k").2.2.2.1 rfl "2"

/-! ### The watcher's poll cycle (for C7 and C8)

`Watcher.poll` resolves into a freshly allocated shadow record, diffs the
shadow's snapshot positionally against the previous one, and — only when at
least one value changed — copies the secret-tagged fields into the live
record and publishes the events with a non-blocking send. The event channel
is modelled as a bounded queue with no concurrent receiver during the
publication loop; `resolveShadow` stands for the `Resolve` into the shadow
and yields, on success, the shadow's snapshot and its secret-field values
(the live record is never passed to it, as in the source). -/

/-- `ChangeEvent` from `secrets.go`. -/
structure ChangeEvent where
  Field : String
  Key : String
  Provider : String
  OldValue : String
  NewValue : String
deriving DecidableEq

/-- A buffered Go channel viewed as a bounded queue. -/
structure EventChan where
  cap : Nat
  buf : List ChangeEvent
deriving DecidableEq

/-- A `select` send with a `default` branch (`watcher.go` lines 259-263):
append when the buffer has room, otherwise do nothing — the event being
sent is dropped. -/
def trySend (c : EventChan) (e : ChangeEvent) : EventChan :=
  if c.buf.length < c.cap then ⟨c.cap, c.buf ++ [e]⟩ else c

/-- The publication loop of `Watcher.poll` (lines 258-264). -/
def publishEvents (c : EventChan) (events : List ChangeEvent) : EventChan :=
  events.foldl trySend c

/-- `fieldSnapshot` from `watcher.go`. -/
structure FieldSnapshot where
  fieldName : String
  key : String
  providerName : String
  raw : String
deriving DecidableEq

/-- The positional diff of `Watcher.poll` (lines 221-237): pair the new
snapshot with the old up to the shorter length and emit one event per
differing raw value, in order. -/
def diffSnapshots (newSnap oldSnap : List FieldSnapshot) : List ChangeEvent :=
  ((newSnap.zip oldSnap).filter (fun p => p.1.raw != p.2.raw)).map
    (fun p => ⟨p.1.fieldName, p.1.key, p.1.providerName, p.2.raw, p.1.raw⟩)

/-- The per-field copy from the shadow into the live record
(`Watcher.poll` lines 249-255): positional, up to the shorter length. -/
def copyFields {α : Type} : List α → List α → List α
  | [], _ => []
  | d :: ds, [] => d :: ds
  | _ :: ds, t :: ts => t :: copyFields ds ts

/-- One poll cycle (`Watcher.poll`): on a failed resolve return `nil`
without touching anything; otherwise diff, and only when events exist copy
the shadow's fields into the live record and publish. Returns the new
snapshot (`none` for the source's `nil`), the live record and the
channel. -/
def pollM {α : Type} (resolveShadow : Except String (List FieldSnapshot × List α))
    (oldSnapshot : List FieldSnapshot) (live : List α) (ch : EventChan) :
    Option (List FieldSnapshot) × List α × EventChan :=
  match resolveShadow with
  | .error _ => (none, live, ch)
  | .ok (newSnapshot, tmpFields) =>
    let events := diffSnapshots newSnapshot oldSnapshot
    if events.isEmpty then (some newSnapshot, live, ch)
    else (some newSnapshot, copyFields live tmpFields, publishEvents ch events)

/-- The snapshot update of `Watcher.pollLoop` (lines 197-200): a `nil`
result keeps the previous snapshot. -/
def pollLoopSnapshot (r : Option (List FieldSnapshot)) (old : List FieldSnapshot) :
    List FieldSnapshot :=
  r.getD old

/-- C8: when the `Resolve` into the shadow record fails, the poll cycle
publishes no change events, the live record is not modified (the failed
resolve only ever wrote to the shadow), and the poll loop retains the prior
snapshot for the next cycle. -/
theorem failed_cycle_no_effects {α : Type} (err : String)
    (oldSnapshot : List FieldSnapshot) (live : List α) (ch : EventChan) :
    pollM (.error err) oldSnapshot live ch = (none, live, ch)
    ∧ pollLoopSnapshot (pollM (α := α) (.error err) oldSnapshot live ch).1 oldSnapshot
        = oldSnapshot :=
  ⟨rfl, rfl⟩

/-- C7 (amended): publishing change events never displaces queued events:
each event is offered with a non-blocking send, so over a cycle the channel
receives exactly the first `cap - |buf|` events appended after the existing
queue, and any event offered to a saturated channel is itself discarded —
the newest events are dropped, not the oldest pending ones. -/
theorem publish_nonblocking_keeps_queued (events : List ChangeEvent) :
    ∀ ch : EventChan,
      publishEvents ch events
        = ⟨ch.cap, ch.buf ++ events.take (ch.cap - ch.buf.length)⟩ := by
  induction events with
  | nil => intro ch; simp [publishEvents]
  | cons e es ih =>
    intro ch
    show publishEvents (trySend ch e) es = _
    by_cases h : ch.buf.length < ch.cap
    · have ht : trySend ch e = ⟨ch.cap, ch.buf ++ [e]⟩ := by simp [trySend, h]
      rw [ht, ih]
      congr 1
      rw [List.length_append]
      have harith : ch.cap - ch.buf.length = (ch.cap - (ch.buf.length + 1)) + 1 := by
        omega
      rw [harith, List.take_succ_cons]
      simp [List.append_assoc]
    · have ht : trySend ch e = ch := by simp [trySend, h]
      rw [ht, ih]
      have h0 : ch.cap - ch.buf.length = 0 := by omega
      simp [h0]

/-- A first change event. -/
def evA : ChangeEvent := ⟨"F", "k", "p", "1", "2"⟩

/-- A later change event for the same field. -/
def evB : ChangeEvent := ⟨"F", "k", "p", "2", "3"⟩

/-- Counterexample for C7: publishing a new event to a saturated channel
(capacity 1, holding `evA`) keeps the oldest pending event and discards the
newer one — the opposite of dropping the oldest. -/
theorem publish_drops_newest :
    evA ≠ evB ∧ publishEvents ⟨1, [evA]⟩ [evB] = ⟨1, [evA]⟩ := by
  exact ⟨by decide, rfl⟩

/-! ### The record walker `collectFields` (for C10)

Go struct types and values are modelled as mutual trees: a type is a
primitive, a pointer or a struct with a field list; a value mirrors the
type's shape, with `nilPtr` for a nil pointer. `collectFields` runs two
passes over a struct's fields: the first collects tagged fields (recursing
through embedded structs), the second recurses into untagged struct-typed
fields — allocating a fresh zero struct for a nil pointer to a struct
before the `hasSecretTags` check, so the allocation happens even when the
pointed-to type has no tagged field. -/

mutual
inductive GoType where
  | prim (name : String)
  | ptr (elem : GoType)
  | strct (fields : GoFields)
inductive GoFields where
  | nil
  | cons (f : GoField) (rest : GoFields)
inductive GoField where
  | mk (name : String) (exported anonymous : Bool) (tag : Option String) (ty : GoType)
end

def GoField.name : GoField → String
  | .mk n _ _ _ _ => n

def GoField.exported : GoField → Bool
  | .mk _ e _ _ _ => e

def GoField.anonymous : GoField → Bool
  | .mk _ _ a _ _ => a

def GoField.tag : GoField → Option String
  | .mk _ _ _ t _ => t

def GoField.ty : GoField → GoType
  | .mk _ _ _ _ ty => ty

mutual
inductive GoValue where
  | primV (s : String)
  | nilPtr
  | ptrV (pointee : GoValue)
  | structV (fields : GoValues)
inductive GoValues where
  | nil
  | cons (v : GoValue) (rest : GoValues)
end

def GoFields.get? : GoFields → Nat → Option GoField
  | .nil, _ => none
  | .cons f _, 0 => some f
  | .cons _ rest, n + 1 => rest.get? n

def GoValues.get? : GoValues → Nat → Option GoValue
  | .nil, _ => none
  | .cons v _, 0 => some v
  | .cons _ rest, n + 1 => rest.get? n

mutual
/-- `hasSecretTags` (resolver, lines 771-786): a tag anywhere in the struct
subtree, looking through one pointer per level. -/
def hasSecretTags : GoType → Bool
  | .strct fs => fieldsHaveTags fs
  | _ => false
def fieldsHaveTags : GoFields → Bool
  | .nil => false
  | .cons (.mk _ _ _ tag ty) rest =>
    tag.isSome ||
      (match ty with
       | .strct fs => fieldsHaveTags fs
       | .ptr (.strct fs) => fieldsHaveTags fs
       | _ => false) ||
      fieldsHaveTags rest
end

mutual
/-- `reflect.New(t).Elem()`: the zero value of a type. -/
def zeroValue : GoType → GoValue
  | .prim _ => .primV ""
  | .ptr _ => .nilPtr
  | .strct fs => .structV (zeroValues fs)
def zeroValues : GoFields → GoValues
  | .nil => .nil
  | .cons (.mk _ _ _ _ ty) rest => .cons (zeroValue ty) (zeroValues rest)
end

mutual
/-- Structural equality of reflect types (`f0.Type == f1.Type`). -/
def goTypeBEq : GoType → GoType → Bool
  | .prim a, .prim b => a == b
  | .ptr a, .ptr b => goTypeBEq a b
  | .strct a, .strct b => goFieldsBEq a b
  | _, _ => false
def goFieldsBEq : GoFields → GoFields → Bool
  | .nil, .nil => true
  | .cons a as, .cons b bs => goFieldBEq a b && goFieldsBEq as bs
  | _, _ => false
def goFieldBEq : GoField → GoField → Bool
  | .mk n e an t ty, .mk n' e' an' t' ty' =>
    n == n' && e == e' && an == an' && t == t' && goTypeBEq ty ty'
end

/-- `isVersionedType` (resolver, lines 417-427): exactly two fields named
`Current` and `Previous` of one type. -/
def isVersionedTy : GoType → Bool
  | .strct (.cons (.mk n0 _ _ _ ty0) (.cons (.mk n1 _ _ _ ty1) .nil)) =>
    n0 == "Current" && n1 == "Previous" && goTypeBEq ty0 ty1
  | _ => false

/-- Resolver configuration: scheme-bound providers and an optional default
provider. -/
structure ResolverCfg where
  providers : List (String × ProviderM)
  defaultProvider : Option ProviderM

def lookupProvider : List (String × ProviderM) → String → Option ProviderM
  | [], _ => none
  | (s, p) :: rest, scheme => if s = scheme then some p else lookupProvider rest scheme

/-- Provider resolution for one tag (collectFields, lines 682-706): a
scheme selects its registered provider, a bare key the default. -/
def resolveProviderM (cfg : ResolverCfg) (tag : parsedTag) : Option (ProviderM × String) :=
  if tag.Scheme ≠ "" then
    (lookupProvider cfg.providers tag.Scheme).map (fun p => (p, tag.Scheme))
  else
    cfg.defaultProvider.map (fun p => (p, "default"))

/-- Processing of one tagged field in the first pass (collectFields, lines
675-728): parse the tag, resolve the provider, require version capability
for a versioned pair; an error is recorded by field name. -/
def fieldTaskOf (cfg : ResolverCfg) (f : GoField) (tagStr : String) :
    List fieldInfoM × List String :=
  match parseTag tagStr with
  | .error _ => ([], [f.name])
  | .ok tag =>
    match resolveProviderM cfg tag with
    | none => ([], [f.name])
    | some (p, pname) =>
      if isVersionedTy f.ty && p.getVersion.isNone then ([], [f.name])
      else ([⟨f.name, tag, p, pname, isVersionedTy f.ty⟩], [])

mutual

/-- First-pass handling of one field (collectFields, lines 655-729): an
embedded struct is traversed in full (both passes); otherwise unexported
and untagged fields are skipped and a tagged field yields its task. Only
the embedded branch can change the stored value. -/
def passOneHead (cfg : ResolverCfg) : GoField → GoValue →
    GoValue × (List fieldInfoM × List String)
  | .mk nm ex anon tag ty, v =>
    if anon then
      match ty, v with
      | .strct tfs, .structV ivs =>
        let r1 := passOneM cfg tfs ivs
        let r2 := passTwoM cfg tfs r1.1
        (.structV r2.1, (r1.2.1 ++ r2.2.1, r1.2.2 ++ r2.2.2))
      | _, _ =>
        if !ex then (v, ([], []))
        else
          match tag with
          | none => (v, ([], []))
          | some tagStr => (v, fieldTaskOf cfg (.mk nm ex anon tag ty) tagStr)
    else
      if !ex then (v, ([], []))
      else
        match tag with
        | none => (v, ([], []))
        | some tagStr => (v, fieldTaskOf cfg (.mk nm ex anon tag ty) tagStr)

/-- Second-pass handling of one field (collectFields, lines 732-767):
skip anonymous, unexported and tagged fields; initialise a nil pointer to a
struct with a fresh zero struct, then recurse into the struct when its
subtree has secret tags. -/
def passTwoHead (cfg : ResolverCfg) : GoField → GoValue →
    GoValue × (List fieldInfoM × List String)
  | .mk _ ex anon tag ty, v =>
    if anon then (v, ([], []))
    else if !ex then (v, ([], []))
    else if tag.isSome then (v, ([], []))
    else
      match ty, v with
      | .ptr (.strct tfs), .nilPtr =>
        if fieldsHaveTags tfs then
          let r1 := passOneM cfg tfs (zeroValues tfs)
          let r2 := passTwoM cfg tfs r1.1
          (.ptrV (.structV r2.1), (r1.2.1 ++ r2.2.1, r1.2.2 ++ r2.2.2))
        else (.ptrV (.structV (zeroValues tfs)), ([], []))
      | .ptr (.strct tfs), .ptrV (.structV ivs) =>
        if fieldsHaveTags tfs then
          let r1 := passOneM cfg tfs ivs
          let r2 := passTwoM cfg tfs r1.1
          (.ptrV (.structV r2.1), (r1.2.1 ++ r2.2.1, r1.2.2 ++ r2.2.2))
        else (v, ([], []))
      | .strct tfs, .structV ivs =>
        if fieldsHaveTags tfs then
          let r1 := passOneM cfg tfs ivs
          let r2 := passTwoM cfg tfs r1.1
          (.structV r2.1, (r1.2.1 ++ r2.2.1, r1.2.2 ++ r2.2.2))
        else (v, ([], []))
      | _, _ => (v, ([], []))

/-- The first pass over a field list. -/
def passOneM (cfg : ResolverCfg) : GoFields → GoValues →
    GoValues × (List fieldInfoM × List String)
  | .nil, vs => (vs, ([], []))
  | .cons _ _, .nil => (.nil, ([], []))
  | .cons f fs, .cons v vs =>
    let head := passOneHead cfg f v
    let rest := passOneM cfg fs vs
    (.cons head.1 rest.1, (head.2.1 ++ rest.2.1, head.2.2 ++ rest.2.2))

/-- The second pass over a field list. -/
def passTwoM (cfg : ResolverCfg) : GoFields → GoValues →
    GoValues × (List fieldInfoM × List String)
  | .nil, vs => (vs, ([], []))
  | .cons _ _, .nil => (.nil, ([], []))
  | .cons f fs, .cons v vs =>
    let head := passTwoHead cfg f v
    let rest := passTwoM cfg fs vs
    (.cons head.1 rest.1, (head.2.1 ++ rest.2.1, head.2.2 ++ rest.2.2))

end

/-- `Resolver.collectFields` on a struct: first pass then second pass over
the same field list; the returned value is the (possibly mutated) struct
contents. -/
def collectFieldsM (cfg : ResolverCfg) (tfs : GoFields) (vs : GoValues) :
    GoValues × List fieldInfoM × List String :=
  let r1 := passOneM cfg tfs vs
  let r2 := passTwoM cfg tfs r1.1
  (r2.1, r1.2.1 ++ r2.2.1, r1.2.2 ++ r2.2.2)

/-- Both passes transform the stored values pointwise: position `i` of the
first pass's output is the head transform of position `i` of the input. -/
theorem passOneM_get? (cfg : ResolverCfg) :
    ∀ (tfs : GoFields) (vs : GoValues) (i : Nat) (f : GoField) (v : GoValue),
      tfs.get? i = some f → vs.get? i = some v →
      (passOneM cfg tfs vs).1.get? i = some (passOneHead cfg f v).1
  | .nil, _, i, f, v, hf, _ => by simp [GoFields.get?] at hf
  | .cons _ _, .nil, i, f, v, _, hv => by simp [GoValues.get?] at hv
  | .cons f' fs, .cons v' vs', 0, f, v, hf, hv => by
    simp only [GoFields.get?, Option.some.injEq] at hf
    simp only [GoValues.get?, Option.some.injEq] at hv
    subst hf; subst hv
    simp [passOneM, GoValues.get?]
  | .cons f' fs, .cons v' vs', n + 1, f, v, hf, hv => by
    simp only [GoFields.get?] at hf
    simp only [GoValues.get?] at hv
    have hrec := passOneM_get? cfg fs vs' n f v hf hv
    simpa [passOneM, GoValues.get?] using hrec

theorem passTwoM_get? (cfg : ResolverCfg) :
    ∀ (tfs : GoFields) (vs : GoValues) (i : Nat) (f : GoField) (v : GoValue),
      tfs.get? i = some f → vs.get? i = some v →
      (passTwoM cfg tfs vs).1.get? i = some (passTwoHead cfg f v).1
  | .nil, _, i, f, v, hf, _ => by simp [GoFields.get?] at hf
  | .cons _ _, .nil, i, f, v, _, hv => by simp [GoValues.get?] at hv
  | .cons f' fs, .cons v' vs', 0, f, v, hf, hv => by
    simp only [GoFields.get?, Option.some.injEq] at hf
    simp only [GoValues.get?, Option.some.injEq] at hv
    subst hf; subst hv
    simp [passTwoM, GoValues.get?]
  | .cons f' fs, .cons v' vs', n + 1, f, v, hf, hv => by
    simp only [GoFields.get?] at hf
    simp only [GoValues.get?] at hv
    have hrec := passTwoM_get? cfg fs vs' n f v hf hv
    simpa [passTwoM, GoValues.get?] using hrec

/-- The first pass never changes the value of a non-embedded field. -/
theorem passOneHead_not_anonymous (cfg : ResolverCfg) (f : GoField) (v : GoValue)
    (h : f.anonymous = false) : (passOneHead cfg f v).1 = v := by
  cases f with
  | mk nm ex anon tag ty =>
    simp only [GoField.anonymous] at h
    subst h
    simp only [passOneHead, Bool.false_eq_true, if_false]
    split
    · rfl
    · split <;> rfl

/-- The second pass replaces a nil pointer to a struct in an exported,
non-embedded, untagged field with a pointer to a struct; when the struct
type's subtree has no secret tags the pointee is exactly the zero struct. -/
theorem passTwoHead_alloc (cfg : ResolverCfg) (f : GoField) {inner : GoFields}
    (hexp : f.exported = true) (hanon : f.anonymous = false) (htag : f.tag = none)
    (hty : f.ty = .ptr (.strct inner)) :
    ∃ w, (passTwoHead cfg f .nilPtr).1 = .ptrV w
      ∧ (fieldsHaveTags inner = false → w = .structV (zeroValues inner)) := by
  cases f with
  | mk nm ex anon tag ty =>
    simp only [GoField.exported] at hexp
    simp only [GoField.anonymous] at hanon
    simp only [GoField.tag] at htag
    simp only [GoField.ty] at hty
    subst hexp; subst hanon; subst htag; subst hty
    by_cases htags : fieldsHaveTags inner = true
    · refine ⟨.structV (passTwoM cfg inner (passOneM cfg inner (zeroValues inner)).1).1,
        ?_, fun hc => absurd htags (by simp [hc])⟩
      simp [passTwoHead, htags]
    · have hfalse : fieldsHaveTags inner = false := by
        cases hcase : fieldsHaveTags inner
        · rfl
        · exact absurd hcase htags
      refine ⟨.structV (zeroValues inner), ?_, fun _ => rfl⟩
      simp [passTwoHead, hfalse]

/-- C10: `Resolve` mutates certain fields carrying no `secret` tag — for
every exported, non-embedded, untagged field holding a nil pointer to a
struct type, the walker's second pass allocates a fresh zero struct and
assigns the pointer, even when the pointed-to type has no secret-tagged
field anywhere in its subtree (then the pointee is exactly the zero
struct); such a field is non-nil after `Resolve` returns. -/
theorem nil_pointer_struct_allocated (cfg : ResolverCfg) (tfs : GoFields)
    (vs : GoValues) (i : Nat) (f : GoField) (inner : GoFields)
    (hf : tfs.get? i = some f) (hv : vs.get? i = some .nilPtr)
    (hexp : f.exported = true) (hanon : f.anonymous = false) (htag : f.tag = none)
    (hty : f.ty = .ptr (.strct inner)) :
    ∃ w, ((collectFieldsM cfg tfs vs).1).get? i = some (.ptrV w)
      ∧ (fieldsHaveTags inner = false → w = .structV (zeroValues inner)) := by
  have h1 : (passOneM cfg tfs vs).1.get? i = some (passOneHead cfg f .nilPtr).1 :=
    passOneM_get? cfg tfs vs i f .nilPtr hf hv
  have h1v : (passOneHead cfg f .nilPtr).1 = .nilPtr :=
    passOneHead_not_anonymous cfg f .nilPtr hanon
  rw [h1v] at h1
  have h2 : (passTwoM cfg tfs (passOneM cfg tfs vs).1).1.get? i
      = some (passTwoHead cfg f .nilPtr).1 :=
    passTwoM_get? cfg tfs _ i f .nilPtr hf h1
  obtain ⟨w, hw, hz⟩ := passTwoHead_alloc cfg f hexp hanon htag hty
  refine ⟨w, ?_, hz⟩
  show (passTwoM cfg tfs (passOneM cfg tfs vs).1).1.get? i = some (.ptrV w)
  rw [h2, hw]

/-- A root struct with one untagged field `Sub`, a nil pointer to an empty
struct type. -/
def rootFields : GoFields :=
  .cons (.mk "Sub" true false none (.ptr (.strct .nil))) .nil

def rootValues : GoValues := .cons .nilPtr .nil

/-- Witness for C10: after `collectFields` the nil pointer field holds a
freshly allocated zero struct, although the pointed-to type has no
secret-tagged field. -/
theorem nil_pointer_struct_allocated_witness :
    ((collectFieldsM ⟨[], none⟩ rootFields rootValues).1).get? 0
      = some (.ptrV (.structV .nil)) := by
  obtain ⟨w, hw, hz⟩ := nil_pointer_struct_allocated ⟨[], none⟩ rootFields rootValues 0
    (.mk "Sub" true false none (.ptr (.strct .nil))) .nil rfl rfl rfl rfl rfl rfl
  rw [hw, hz rfl]
  rfl

end GoSecrets
